import Mathlib

/-!
Shallow embedding of the hybrid-search / RAG core of the arXiv RAG worker
(`search-service`, `rag-service`, `embeddings-service`, with the D1 store and
the Workers AI model treated as external collaborators whose responses are
passed in as arguments).  Scores and embedding coordinates are JS numbers in
the source; they are modelled as real numbers.  Fallible operations
(JS `throw`) are modelled with `Except String`.
-/

namespace ArxivRag

open scoped List

/-- Paper row as used by the search and RAG services (`d1-client`).  Only the
fields the core reads are modelled.  `id` is `Option String` because the
source guards it with a JS truthiness test (`result.paper.id || ...`), under
which both an absent field and the empty string are falsy. -/
structure Paper where
  id : Option String
  arxiv_id : String
  title : String
  authors : List String
  abstract : String
  category : Option String
  published_date : String
  pdf_url : String
deriving Repr, DecidableEq

/-- A search result: `{ paper, score, relevance }`. -/
structure SearchResult where
  paper : Paper
  score : ℝ
  relevance : String

/-- JS truthiness of `paper.id` (`undefined`/`null`/`""` are falsy). -/
def idTruthy : Option String → Bool
  | none => false
  | some s => !s.isEmpty

/-- The serialized embedding column of a chunk row.  `JSON.parse` is external
library behaviour; the model distinguishes the three cases the code path can
meet: a falsy column (`NULL` or empty string), a non-empty string that
`JSON.parse` rejects (it throws, carrying some message), and a non-empty
string that parses to a numeric array. -/
inductive Blob where
  | missing : Blob
  | malformed : String → Blob
  | parsed : List ℝ → Blob

/-- JS truthiness test `c.embedding` used by the filter in `semanticSearch`. -/
def blobTruthy : Blob → Bool
  | .missing => false
  | .malformed _ => true
  | .parsed _ => true

/-- Model of `JSON.parse(c.embedding || '[]')`: a falsy column falls back to
the literal `'[]'` (parsing to the empty array), a malformed column throws,
a well-formed column yields its numeric array. -/
def parseEmbedding : Blob → Except String (List ℝ)
  | .missing => .ok []
  | .malformed e => .error e
  | .parsed v => .ok v

/-- Chunk row returned by `getAllChunksWithEmbeddings`. -/
structure ChunkRow where
  chunkId : String
  paperId : String
  content : String
  embedding : Blob
  paper : Paper

/-- Candidate passed to `findSimilar`. -/
structure Candidate where
  id : String
  text : String
  embedding : List ℝ

/-- Scored row returned by `findSimilar`. -/
structure SimResult where
  id : String
  text : String
  score : ℝ

/-! ## Embeddings service (`embeddings-service.ts`) -/

/-- Dot product accumulated by the loop in `cosineSimilarity` (the loop runs
over indices of `a`; lengths are equal on this code path). -/
def dotProduct (a b : List ℝ) : ℝ := (List.zipWith (fun x y => x * y) a b).sum

/-- Sum of squares accumulated by the same loop (`normA`, `normB`). -/
def sumSquares (a : List ℝ) : ℝ := (a.map (fun x => x * x)).sum

/-- `cosineSimilarity(a, b)`: throws on dimension mismatch, returns `0` when
the product of magnitudes is zero, otherwise `dot / (sqrt normA * sqrt normB)`. -/
noncomputable def cosineSimilarity (a b : List ℝ) : Except String ℝ :=
  if a.length ≠ b.length then .error "Vectors must have same dimension"
  else
    let magnitude := Real.sqrt (sumSquares a) * Real.sqrt (sumSquares b)
    if magnitude = 0 then .ok 0
    else .ok (dotProduct a b / magnitude)

/-- The per-candidate body of the `candidates.map` in `findSimilar`: carry id
and text, score by cosine similarity against the query. -/
noncomputable def scoreCandidate (queryEmbedding : List ℝ) (c : Candidate) :
    Except String SimResult := do
  let s ← cosineSimilarity queryEmbedding c.embedding
  pure (SimResult.mk c.id c.text s)

/-- `findSimilar(queryEmbedding, candidates, topK = 5, minSimilarity = 0.3)`:
score every candidate by cosine similarity, keep the scores `≥ minSimilarity`,
sort descending (JS `sort` is stable; `mergeSort` with `b.score ≤ a.score`
matches the comparator `(a, b) => b.score - a.score`), truncate to `topK`. -/
noncomputable def findSimilar (queryEmbedding : List ℝ) (candidates : List Candidate)
    (topK : ℕ) (minSimilarity : ℝ) : Except String (List SimResult) := do
  let scores ← candidates.mapM (scoreCandidate queryEmbedding)
  pure (((scores.filter (fun s => decide (minSimilarity ≤ s.score))).mergeSort
    (fun a b => decide (b.score ≤ a.score))).take topK)

/-! ## Search service (`search-service.ts`) -/

/-- JS truthiness of the optional `category` argument of `keywordSearch`
(`undefined` and the empty string are falsy). -/
def catTruthy : Option String → Bool
  | none => false
  | some s => !s.isEmpty

/-- `keywordSearch({ query, limit, category })`.  The D1 call
`searchKeyword(query, limit)` is an external store access; its response rows
(already shaped `{ paper, score: 0.5, relevance: 'keyword' }` by `d1-client`)
are passed in as `storeRows`.  The service validates the query and applies the
in-memory category filter. -/
def keywordSearch (query : String) (storeRows : List SearchResult)
    (category : Option String) : Except String (List SearchResult) :=
  if query.isEmpty then .error "Query cannot be empty"
  else if catTruthy category then
    .ok (storeRows.filter (fun p => p.paper.category == category))
  else .ok storeRows

/-- The per-row body of the candidate mapping in `semanticSearch`:
deserialize the embedding column and shape `{ id, text, embedding }`. -/
def parseChunk (c : ChunkRow) : Except String Candidate := do
  let v ← parseEmbedding c.embedding
  pure (Candidate.mk c.chunkId c.content v)

/-- The candidate list built inside `semanticSearch`: keep rows whose
embedding column is truthy, then `JSON.parse` each kept column (a parse
failure throws out of the whole `map`, hence out of the whole request). -/
def candidatesOf (allChunks : List ChunkRow) : Except String (List Candidate) :=
  (allChunks.filter (fun c => blobTruthy c.embedding)).mapM parseChunk

/-- One step of the `Map`-based score accumulation used both by
`semanticSearch` (keyed by `chunk.paperId`) and by `hybridSearch` (keyed by
the RRF paper key): fetch the existing bucket or create `{ paper, score: 0 }`,
add `add` to its score, store it back.  A JS `Map` preserves insertion order,
so it is modelled as an association list with unique keys. -/
def bucketAdd (m : List (String × Paper × ℝ)) (key : String) (paper : Paper)
    (add : ℝ) : List (String × Paper × ℝ) :=
  if m.any (fun e => e.1 == key) then
    m.map (fun e => if e.1 == key then (e.1, e.2.1, e.2.2 + add) else e)
  else m ++ [(key, paper, 0 + add)]

/-- Fold a stream of `(key, paper, score-increment)` events into buckets. -/
def bucketFold (init : List (String × Paper × ℝ))
    (events : List (String × Paper × ℝ)) : List (String × Paper × ℝ) :=
  events.foldl (fun m e => bucketAdd m e.1 e.2.1 e.2.2) init

/-- Score of `key` in the bucket list (0 when absent), i.e. what
`combinedScores.get(key).score` would read. -/
def bucketScore (m : List (String × Paper × ℝ)) (key : String) : ℝ :=
  match m.find? (fun e => e.1 == key) with
  | some e => e.2.2
  | none => 0

/-- The per-paper aggregation events of `semanticSearch`: each `findSimilar`
row is looked up back in `allChunks` by `chunkId` (rows without a matching
chunk are skipped by `continue`) and contributes its similarity score to its
paper's bucket. -/
def semanticEvents (similar : List SimResult) (allChunks : List ChunkRow) :
    List (String × Paper × ℝ) :=
  similar.filterMap (fun r =>
    match allChunks.find? (fun c => c.chunkId == r.id) with
    | none => none
    | some chunk => some (chunk.paperId, chunk.paper, r.score))

/-- Body of `semanticSearch` after query validation and query embedding: the
query vector produced by the external embedding model is `queryEmbedding`,
the D1 rows are `allChunks`. -/
noncomputable def semanticSearchCore (queryEmbedding : List ℝ)
    (allChunks : List ChunkRow) (topK : ℕ) (minSimilarity : ℝ) :
    Except String (List SearchResult) :=
  if allChunks.length = 0 then .ok []
  else do
    let cands ← candidatesOf allChunks
    let similar ← findSimilar queryEmbedding cands topK minSimilarity
    let paperScores := bucketFold [] (semanticEvents similar allChunks)
    pure (((paperScores.mergeSort (fun a b => decide (b.2.2 ≤ a.2.2))).take topK).map
      (fun e => SearchResult.mk e.2.1 e.2.2 "semantic"))

/-- `semanticSearch({ query, topK = 10, minSimilarity = 0.3 })`. -/
noncomputable def semanticSearch (query : String) (queryEmbedding : List ℝ)
    (allChunks : List ChunkRow) (topK : ℕ) (minSimilarity : ℝ) :
    Except String (List SearchResult) :=
  if query.isEmpty then .error "Query cannot be empty"
  else semanticSearchCore queryEmbedding allChunks topK minSimilarity

/-- `Math.max(...results.map(r => r.score))` for a non-empty list (the empty
case is unreachable: `normalizeScores` returns early on it; 0 is an arbitrary
value for totality). -/
noncomputable def maxScoreOf : List SearchResult → ℝ
  | [] => 0
  | r :: rs => (rs.map (fun x => x.score)).foldl max r.score

/-- The `normalizeScores` helper inside `hybridSearch`: divide every score by
the list's maximum (`Math.max(...scores)`), or set all scores to 0 when that
maximum is not positive; the empty list is returned unchanged. -/
noncomputable def normalizeScores (results : List SearchResult) : List SearchResult :=
  match results with
  | [] => results
  | r :: rs =>
    let maxScore := maxScoreOf (r :: rs)
    (r :: rs).map (fun x =>
      { x with score := if maxScore > 0 then x.score / maxScore else 0 })

/-- The synthetic fallback key for a row without a truthy paper id. -/
def fallbackKey (i : ℕ) : String := "unknown_" ++ Nat.repr i

/-- The combination key of row `i`: `result.paper.id || unknown_<i>`. -/
def idKey (id : Option String) (i : ℕ) : String :=
  if idTruthy id then id.getD "" else fallbackKey i

/-- The `(key, paper, rrfScore)` contributions of one list in `hybridSearch`:
position `i` awards `(1 / (k + i + 1)) * weight` with `k = 60`. -/
noncomputable def rrfEvents (weight : ℝ) (l : List SearchResult) : List (String × Paper × ℝ) :=
  l.enum.map (fun p => (idKey p.2.paper.id p.1, p.2.paper,
    1 / (60 + (p.1 : ℝ) + 1) * weight))

/-- The `combinedScores` map of `hybridSearch` after both RRF loops: first the
keyword loop, then the semantic loop. -/
noncomputable def rrfCombine (normKeyword normSemantic : List SearchResult)
    (keywordWeight semanticWeight : ℝ) : List (String × Paper × ℝ) :=
  bucketFold (bucketFold [] (rrfEvents keywordWeight normKeyword))
    (rrfEvents semanticWeight normSemantic)

/-- The fused list of `hybridSearch` after validation and the two sub-searches
(whose delivered result lists are `keywordResults` and `semanticResults`):
normalize both lists, combine them with weighted RRF, sort by combined score
descending (stable), truncate to `topK`, tag as `hybrid`. -/
noncomputable def hybridRanked (keywordResults semanticResults : List SearchResult)
    (topK : ℕ) (keywordWeight semanticWeight : ℝ) : List SearchResult :=
  let normKeyword := normalizeScores keywordResults
  let normSemantic := normalizeScores semanticResults
  let combined := rrfCombine normKeyword normSemantic keywordWeight semanticWeight
  ((combined.mergeSort (fun a b => decide (b.2.2 ≤ a.2.2))).take topK).map
    (fun e => SearchResult.mk e.2.1 e.2.2 "hybrid")

/-- `hybridSearch(query, topK = 10, keywordWeight = 0.5, semanticWeight = 0.5)`.
The two sub-searches run under `Promise.all`; their delivered candidate lists
are parameters (each requested with `2 × topK` in the source). -/
noncomputable def hybridSearch (query : String)
    (keywordResults semanticResults : List SearchResult) (topK : ℕ)
    (keywordWeight semanticWeight : ℝ) : Except String (List SearchResult) :=
  if query.isEmpty then .error "Query cannot be empty"
  else .ok (hybridRanked keywordResults semanticResults topK keywordWeight semanticWeight)

/-! ## String primitives used by the RAG service

JS `String.prototype.trim` and `String.prototype.includes` are library
behaviour; they are modelled on the character list of the string. -/

/-- Number of occurrence positions of `pat` in `s` (every index of `s`, plus
the end position, at which `pat` is a prefix of the remaining suffix).  JS
`includes` is `countSubstr ≠ 0`. -/
def countSubstr : List Char → List Char → ℕ
  | [], pat => if pat.isEmpty then 1 else 0
  | c :: s, pat => (if pat.isPrefixOf (c :: s) then 1 else 0) + countSubstr s pat

/-- JS `s.includes(pat)`. -/
def includes (s pat : String) : Bool := countSubstr s.data pat.data != 0

/-- JS `s.trim()`: strip leading and trailing whitespace. -/
def jsTrim (s : String) : String :=
  ⟨((s.data.dropWhile Char.isWhitespace).reverse.dropWhile Char.isWhitespace).reverse⟩

/-! ## RAG service (`rag-service.ts`) -/

/-- `(paper.authors || [])[0] || 'Unknown'`. -/
def firstAuthor (p : Paper) : String :=
  match p.authors with
  | [] => "Unknown"
  | a :: _ => if a.isEmpty then "Unknown" else a

/-- One citation line of the non-streaming `formatAnswerWithCitations`:
`[n] FirstAuthor et al., "Title", arXiv:ID (date)` plus a newline, where
`n` is the 1-based rank. -/
def citeLine (i : ℕ) (p : Paper) : String :=
  "[" ++ Nat.repr (i + 1) ++ "] " ++ firstAuthor p ++ " et al., \"" ++ p.title
    ++ "\", arXiv:" ++ p.arxiv_id ++ " (" ++ p.published_date ++ ")\n"

/-- One citation line of the streaming path (`streamLLMResponse`), which has
no date suffix. -/
def streamCiteLine (i : ℕ) (p : Paper) : String :=
  "[" ++ Nat.repr (i + 1) ++ "] " ++ firstAuthor p ++ " et al., \"" ++ p.title
    ++ "\", arXiv:" ++ p.arxiv_id ++ "\n"

/-- The block of citation lines appended by `formatAnswerWithCitations`
(`sources.forEach` with `+=`). -/
def citationsBlock (sources : List SearchResult) : String :=
  (sources.enum.map (fun p => citeLine p.1 p.2.paper)).foldl (fun a b => a ++ b) ""

/-- `formatAnswerWithCitations(answer, sources)`: trim the raw model output;
when the trimmed answer does not contain `[1]`, append a `Sources:` header and
one citation line per source in rank order; otherwise return it unchanged. -/
def formatAnswerWithCitations (answer : String) (sources : List SearchResult) : String :=
  let formattedAnswer := jsTrim answer
  if includes formattedAnswer "[1]" then formattedAnswer
  else formattedAnswer ++ "\n\nSources:\n" ++ citationsBlock sources

/-- Source descriptor in the `RAGResponse`. -/
structure RAGSource where
  arxivId : String
  title : String
  authors : List String
  url : String

/-- `RAGResponse`. -/
structure RAGAnswer where
  answer : String
  sources : List RAGSource
  generatedAt : String

/-- Map a search result to its response source descriptor. -/
def toRAGSource (r : SearchResult) : RAGSource :=
  ⟨r.paper.arxiv_id, r.paper.title, r.paper.authors, r.paper.pdf_url⟩

/-- The canned zero-result answer. -/
def cannedNoResults : String :=
  "I could not find relevant papers to answer your question. Please try a different query."

/-- `generateAnswer(options)`: validate the query, early-return the canned
answer on zero results, otherwise post-process the raw model output (the
external LLM call is a parameter: `some raw` when the response had a
`result.response` field, `none` otherwise) and attach the sources and the
generation timestamp `now`. -/
def generateAnswer (query : String) (searchResults : List SearchResult)
    (llmResponse : Option String) (now : String) : Except String RAGAnswer :=
  if query.isEmpty then .error "Query cannot be empty"
  else if searchResults.isEmpty then .ok ⟨cannedNoResults, [], now⟩
  else match llmResponse with
    | some raw =>
      .ok ⟨formatAnswerWithCitations raw searchResults, searchResults.map toRAGSource, now⟩
    | none =>
      .ok ⟨"Unable to generate answer from the provided context.",
        searchResults.map toRAGSource, now⟩

/-- `streamLLMResponse(query, context, sources)` as the fragment sequence it
yields: every truthy model fragment in arrival order, then always the
`Sources:` header fragment, then one citation line fragment per source in
rank order. -/
def streamLLMResponse (modelChunks : List String) (sources : List SearchResult) :
    List String :=
  modelChunks.filter (fun c => !c.isEmpty)
    ++ ["\n\nSources:\n"]
    ++ sources.enum.map (fun p => streamCiteLine p.1 p.2.paper)

/-- `streamAnswer(options)` as the fragment sequence it yields: validate the
query, yield the canned message once on zero results, otherwise delegate to
`streamLLMResponse`.  `searchResults` is the list delivered by the search
phase and `modelChunks` the streamed fragments of the external model. -/
def streamAnswer (query : String) (searchResults : List SearchResult)
    (modelChunks : List String) : Except String (List String) :=
  if query.isEmpty then .error "Query cannot be empty"
  else if searchResults.isEmpty then .ok [cannedNoResults]
  else .ok (streamLLMResponse modelChunks searchResults)

/-! ## Accounting lemmas for the `Map`-based score buckets -/

/-- The insertion-ordered key list of a bucket list. -/
def bucketKeys (m : List (String × Paper × ℝ)) : List String := m.map (fun e => e.1)

/-- `bucketAdd` leaves every key alone except `k`, whose bucket gains `add`;
a missing key reads as score 0 before and `add` after. -/
lemma bucketScore_bucketAdd (m : List (String × Paper × ℝ)) (k : String) (p : Paper)
    (a : ℝ) (key : String) :
    bucketScore (bucketAdd m k p a) key
      = bucketScore m key + (if k = key then a else 0) := by
  have hfst : ∀ e : String × Paper × ℝ,
      (if e.1 == k then (e.1, e.2.1, e.2.2 + a) else e).1 = e.1 := by
    intro e; by_cases h : (e.1 == k) = true <;> simp [h]
  cases hmem : m.any (fun e => e.1 == k) with
  | true =>
    simp only [bucketAdd, hmem, if_true]
    have hpred : ((fun e : String × Paper × ℝ => e.1 == key) ∘
        (fun e => if e.1 == k then (e.1, e.2.1, e.2.2 + a) else e))
        = (fun e : String × Paper × ℝ => e.1 == key) := by
      funext e
      simp only [Function.comp]
      rw [hfst e]
    by_cases hkk : k = key
    · subst hkk
      cases hf : m.find? (fun e => e.1 == k) with
      | none =>
        exfalso
        obtain ⟨x, hx, hpx⟩ := List.any_eq_true.mp hmem
        exact (List.find?_eq_none.mp hf x hx) hpx
      | some e =>
        have hpe : e.1 = k := by
          have h2 := List.find?_some hf
          simpa using h2
        simp only [bucketScore, List.find?_map, hpred, hf, Option.map_some]
        simp [hpe]
    · simp only [bucketScore, List.find?_map, hpred]
      cases hf : m.find? (fun e => e.1 == key) with
      | none => simp [hkk]
      | some e =>
        have hpe : e.1 = key := by
          have h2 := List.find?_some hf
          simpa using h2
        have hfe : (if (e.1 == k) = true then (e.1, e.2.1, e.2.2 + a) else e) = e := by
          rw [if_neg]
          simp only [beq_iff_eq]
          exact fun h => hkk (h.symm.trans hpe)
        rw [Option.map_some', hfe]
        simp [hkk]
  | false =>
    simp only [bucketAdd, hmem, Bool.false_eq_true, if_false]
    have hnone : m.find? (fun e => e.1 == k) = none := by
      rw [List.find?_eq_none]
      intro x hx
      exact List.any_eq_false.mp hmem x hx
    by_cases hkk : k = key
    · subst hkk
      simp only [bucketScore, List.find?_append, hnone, Option.none_or]
      simp
    · simp only [bucketScore, List.find?_append]
      have hsing : ([(k, p, 0 + a)].find? (fun e => e.1 == key)) = none := by
        simp [hkk]
      rw [hsing]
      simp [hkk]

/-- Total contribution of an event stream to one key. -/
noncomputable def eventSum (events : List (String × Paper × ℝ)) (key : String) : ℝ :=
  (events.map (fun e => if e.1 = key then e.2.2 else 0)).sum

/-- Folding an event stream adds each key's total contribution to its score. -/
lemma bucketScore_bucketFold (events : List (String × Paper × ℝ))
    (m : List (String × Paper × ℝ)) (key : String) :
    bucketScore (bucketFold m events) key = bucketScore m key + eventSum events key := by
  induction events generalizing m with
  | nil => simp [bucketFold, eventSum]
  | cons e es ih =>
    simp only [bucketFold, List.foldl_cons] at *
    rw [ih (bucketAdd m e.1 e.2.1 e.2.2), bucketScore_bucketAdd]
    simp only [eventSum, List.map_cons, List.sum_cons]
    by_cases h : e.1 = key
    · simp only [h, if_true]
      ring
    · simp only [h, if_false]
      ring

/-- `bucketAdd` appends the key when new and keeps the key list otherwise. -/
lemma bucketKeys_bucketAdd (m : List (String × Paper × ℝ)) (k : String) (p : Paper)
    (a : ℝ) :
    bucketKeys (bucketAdd m k p a)
      = if k ∈ bucketKeys m then bucketKeys m else bucketKeys m ++ [k] := by
  have hfst : ∀ e : String × Paper × ℝ,
      (if e.1 == k then (e.1, e.2.1, e.2.2 + a) else e).1 = e.1 := by
    intro e; by_cases h : (e.1 == k) = true <;> simp [h]
  cases hmem : m.any (fun e => e.1 == k) with
  | true =>
    have hk : k ∈ bucketKeys m := by
      obtain ⟨x, hx, hpx⟩ := List.any_eq_true.mp hmem
      have hxk : x.1 = k := by simpa using hpx
      exact hxk ▸ List.mem_map_of_mem (fun e => e.1) hx
    rw [if_pos hk]
    simp only [bucketAdd, hmem, if_true, bucketKeys, List.map_map]
    exact List.map_congr_left (fun e _ => hfst e)
  | false =>
    have hk : k ∉ bucketKeys m := by
      intro hmem2
      obtain ⟨e, he, hke⟩ := List.mem_map.mp hmem2
      exact (List.any_eq_false.mp hmem e he) (by simp [hke])
    rw [if_neg hk]
    simp only [bucketAdd, hmem, Bool.false_eq_true, if_false, bucketKeys,
      List.map_append]
    rfl

/-- Key membership after a fold: a key is present iff it was present before
or occurs in the event stream. -/
lemma mem_bucketKeys_bucketFold (events : List (String × Paper × ℝ))
    (m : List (String × Paper × ℝ)) (key : String) :
    key ∈ bucketKeys (bucketFold m events)
      ↔ key ∈ bucketKeys m ∨ key ∈ events.map (fun e => e.1) := by
  induction events generalizing m with
  | nil => simp [bucketFold]
  | cons e es ih =>
    simp only [bucketFold, List.foldl_cons] at *
    rw [ih (bucketAdd m e.1 e.2.1 e.2.2)]
    rw [bucketKeys_bucketAdd]
    by_cases h : e.1 ∈ bucketKeys m
    · simp only [if_pos h, List.map_cons, List.mem_cons]
      constructor
      · rintro (hm | hevs)
        · exact Or.inl hm
        · exact Or.inr (Or.inr hevs)
      · rintro (hm | rfl | hevs)
        · exact Or.inl hm
        · exact Or.inl h
        · exact Or.inr hevs
    · simp only [if_neg h, List.map_cons, List.mem_cons, List.mem_append,
        List.mem_singleton]
      tauto

/-- The key list of a bucket fold stays duplicate-free. -/
lemma nodup_bucketKeys_bucketFold (events : List (String × Paper × ℝ))
    (m : List (String × Paper × ℝ)) (h : (bucketKeys m).Nodup) :
    (bucketKeys (bucketFold m events)).Nodup := by
  induction events generalizing m with
  | nil => exact h
  | cons e es ih =>
    simp only [bucketFold, List.foldl_cons]
    apply ih
    rw [bucketKeys_bucketAdd]
    by_cases hk : e.1 ∈ bucketKeys m
    · simpa [hk] using h
    · rw [if_neg hk]
      simp [List.nodup_append, h, hk]

/-! ## Injectivity of the decimal rendering used by `unknown_<index>`

The fallback key embeds the JS array index in decimal (`Nat.repr` in this
model).  Distinctness of fallback keys for distinct indices reduces to
injectivity of `Nat.repr`, proved here by decoding the digit list. -/

/-- Numeric value of a decimal digit character. -/
def digitVal (c : Char) : ℕ := c.toNat - 48

/-- Decode a most-significant-first decimal digit list. -/
def digitsVal (l : List Char) : ℕ := l.foldl (fun a c => 10 * a + digitVal c) 0

lemma digitsVal_append_singleton (l : List Char) (c : Char) :
    digitsVal (l ++ [c]) = 10 * digitsVal l + digitVal c := by
  simp [digitsVal, List.foldl_append]

lemma toDigitsCore_append (f n : ℕ) (ds : List Char) :
    Nat.toDigitsCore 10 f n ds = Nat.toDigitsCore 10 f n [] ++ ds := by
  induction f generalizing n ds with
  | zero => simp [Nat.toDigitsCore]
  | succ f ih =>
    simp only [Nat.toDigitsCore]
    by_cases h : n / 10 = 0
    · simp [h]
    · rw [if_neg h, if_neg h, ih (n / 10) (Nat.digitChar (n % 10) :: ds),
        ih (n / 10) [Nat.digitChar (n % 10)]]
      simp

lemma digitVal_digitChar (n : ℕ) (h : n < 10) : digitVal (Nat.digitChar n) = n := by
  interval_cases n <;> decide

lemma digitsVal_toDigitsCore (f n : ℕ) (h : n < f) :
    digitsVal (Nat.toDigitsCore 10 f n []) = n := by
  induction f generalizing n with
  | zero => omega
  | succ f ih =>
    simp only [Nat.toDigitsCore]
    by_cases h10 : n / 10 = 0
    · rw [if_pos h10]
      have hd := digitVal_digitChar (n % 10) (Nat.mod_lt n (by norm_num))
      simp only [digitsVal, List.foldl_cons, List.foldl_nil, hd]
      omega
    · rw [if_neg h10, toDigitsCore_append, digitsVal_append_singleton,
        ih (n / 10) (by omega), digitVal_digitChar (n % 10) (Nat.mod_lt n (by norm_num))]
      omega

/-- Decimal rendering of naturals is injective. -/
lemma nat_repr_injective {m n : ℕ} (h : Nat.repr m = Nat.repr n) : m = n := by
  have hdata : Nat.toDigits 10 m = Nat.toDigits 10 n := by
    have h2 := congrArg String.data h
    simpa [Nat.repr, List.asString] using h2
  have h3 := congrArg digitsVal hdata
  rwa [Nat.toDigits, Nat.toDigits, digitsVal_toDigitsCore _ _ (Nat.lt_succ_self m),
    digitsVal_toDigitsCore _ _ (Nat.lt_succ_self n)] at h3

/-- Distinct indices produce distinct `unknown_<index>` fallback keys. -/
lemma fallbackKey_injective {i j : ℕ} (h : fallbackKey i = fallbackKey j) : i = j := by
  apply nat_repr_injective
  have h2 := congrArg String.data h
  simp only [fallbackKey, String.data_append] at h2
  have h3 := List.append_cancel_left h2
  cases hh : Nat.repr i with
  | mk di =>
    cases hh2 : Nat.repr j with
    | mk dj =>
      rw [hh, hh2] at h3
      simp at h3
      rw [h3]

/-! ## RRF score accounting -/

/-- The total reciprocal-rank mass a single list gives to one combination
key: `Σ 1 / (60 + i + 1)` over the positions `i` whose key is `key` (the
list weight multiplies this afterwards). -/
noncomputable def rrfContrib (l : List SearchResult) (key : String) : ℝ :=
  (l.enum.map (fun q =>
    if idKey q.2.paper.id q.1 = key then 1 / (60 + (q.1 : ℝ) + 1) else 0)).sum

/-- The RRF event stream of one list contributes `rrfContrib · weight`. -/
lemma eventSum_rrfEvents (w : ℝ) (l : List SearchResult) (key : String) :
    eventSum (rrfEvents w l) key = rrfContrib l key * w := by
  simp only [eventSum, rrfEvents, rrfContrib, List.map_map]
  rw [← List.sum_map_mul_right]
  congr 1
  apply List.map_congr_left
  intro q _
  simp only [Function.comp]
  by_cases h : idKey q.2.paper.id q.1 = key
  · simp [h]
  · simp [h]

/-- Fused score of a key: weighted sum of the two reciprocal-rank masses. -/
lemma bucketScore_rrfCombine (nk ns : List SearchResult) (kw sw : ℝ) (key : String) :
    bucketScore (rrfCombine nk ns kw sw) key
      = rrfContrib nk key * kw + rrfContrib ns key * sw := by
  simp only [rrfCombine]
  rw [bucketScore_bucketFold, bucketScore_bucketFold, eventSum_rrfEvents,
    eventSum_rrfEvents]
  simp [bucketScore]

/-- A list whose rank-0 row has key `key`, with `key` absent from every later
rank, gives that key reciprocal-rank mass exactly `1/61`. -/
lemma rrfContrib_rank0 (a : SearchResult) (t : List SearchResult) (key : String)
    (h0 : idKey a.paper.id 0 = key)
    (hrest : ∀ q ∈ t.enumFrom 1, idKey q.2.paper.id q.1 ≠ key) :
    rrfContrib (a :: t) key = 1 / 61 := by
  simp only [rrfContrib, List.enum_cons, List.map_cons, List.sum_cons, h0, if_true]
  have hz : ((t.enumFrom 1).map (fun q =>
      if idKey q.2.paper.id q.1 = key then 1 / (60 + (q.1 : ℝ) + 1) else 0)).sum = 0 := by
    apply List.sum_eq_zero
    intro x hx
    obtain ⟨q, hq, rfl⟩ := List.mem_map.mp hx
    simp [hrest q hq]
  rw [hz]
  norm_num

/-- Combined score of a key sitting at rank 0 of both candidate lists and at
no other rank: `(1/61) · keywordWeight + (1/61) · semanticWeight`. -/
lemma rrf_rank0_both (kwA : SearchResult) (kwT : List SearchResult)
    (semA : SearchResult) (semT : List SearchResult) (key : String) (kw sw : ℝ)
    (hk0 : idKey kwA.paper.id 0 = key)
    (hkrest : ∀ q ∈ kwT.enumFrom 1, idKey q.2.paper.id q.1 ≠ key)
    (hs0 : idKey semA.paper.id 0 = key)
    (hsrest : ∀ q ∈ semT.enumFrom 1, idKey q.2.paper.id q.1 ≠ key) :
    bucketScore (rrfCombine (kwA :: kwT) (semA :: semT) kw sw) key
      = 1 / 61 * kw + 1 / 61 * sw := by
  rw [bucketScore_rrfCombine, rrfContrib_rank0 _ _ _ hk0 hkrest,
    rrfContrib_rank0 _ _ _ hs0 hsrest]

/-! ## `mapM` over `Except` -/

lemma mapM_ok_mem {α β : Type} (f : α → Except String β) (l : List α) (ys : List β)
    (h : l.mapM f = .ok ys) : ∀ y ∈ ys, ∃ x ∈ l, f x = .ok y := by
  rw [← List.mapM'_eq_mapM] at h
  induction l generalizing ys with
  | nil =>
    simp only [List.mapM'] at h
    cases h
    intro y hy
    simp at hy
  | cons a as ih =>
    simp only [List.mapM'] at h
    cases hfa : f a with
    | error e => rw [hfa] at h; simp [Bind.bind, Except.bind] at h
    | ok b =>
      rw [hfa] at h
      cases hrest : as.mapM' f with
      | error e => rw [hrest] at h; simp [Bind.bind, Except.bind] at h
      | ok bs =>
        rw [hrest] at h
        simp only [Bind.bind, Except.bind, Pure.pure, Except.pure] at h
        cases h
        intro y hy
        rcases List.mem_cons.mp hy with rfl | hmem
        · exact ⟨a, List.mem_cons_self _ _, hfa⟩
        · obtain ⟨x, hx, hfx⟩ := ih bs hrest y hmem
          exact ⟨x, List.mem_cons_of_mem _ hx, hfx⟩

lemma mapM_ok_of_all {α β : Type} (f : α → Except String β) (l : List α)
    (h : ∀ x ∈ l, ∃ y, f x = .ok y) : ∃ ys, l.mapM f = .ok ys := by
  rw [← List.mapM'_eq_mapM]
  induction l with
  | nil => exact ⟨[], rfl⟩
  | cons a as ih =>
    obtain ⟨b, hb⟩ := h a (List.mem_cons_self _ _)
    obtain ⟨bs, hbs⟩ := ih (fun x hx => h x (List.mem_cons_of_mem _ hx))
    refine ⟨b :: bs, ?_⟩
    simp only [List.mapM', hb, hbs, Bind.bind, Except.bind, Pure.pure, Except.pure]

lemma mapM_error_of_mem {α β : Type} (f : α → Except String β) (l : List α)
    (x : α) (e : String) (hfx : f x = .error e) :
    x ∈ l → ∀ ys, l.mapM f ≠ .ok ys := by
  induction l with
  | nil => intro hx; simp at hx
  | cons a as ih =>
    intro hx ys hok
    rw [← List.mapM'_eq_mapM] at hok
    simp only [List.mapM'] at hok
    rcases List.mem_cons.mp hx with rfl | hmem
    · rw [hfx] at hok
      simp [Bind.bind, Except.bind] at hok
    · cases hfa : f a with
      | error e2 => rw [hfa] at hok; simp [Bind.bind, Except.bind] at hok
      | ok b =>
        rw [hfa] at hok
        cases hrest : as.mapM' f with
        | error e2 => rw [hrest] at hok; simp [Bind.bind, Except.bind] at hok
        | ok bs =>
          rw [List.mapM'_eq_mapM] at hrest
          exact ih hmem bs hrest

/-! ## Occurrence counting for `Sources:` sections -/

lemma countSubstr_eq_zero_iff (pat : List Char) (hne : pat ≠ []) (s : List Char) :
    countSubstr s pat = 0 ↔ ¬ pat <:+: s := by
  induction s with
  | nil =>
    have hpe : pat.isEmpty = false := by
      cases pat with
      | nil => exact absurd rfl hne
      | cons a l => rfl
    simp [countSubstr, hpe, hne]
  | cons c s ih =>
    simp only [countSubstr]
    rw [List.infix_cons_iff]
    by_cases hp : pat.isPrefixOf (c :: s) = true
    · have hpre : pat <+: c :: s := List.isPrefixOf_iff_prefix.mp hp
      simp [hp, hpre]
    · have hnp : ¬ pat <+: c :: s := fun hh => hp (List.isPrefixOf_iff_prefix.mpr hh)
      simp [hp, hnp, ih]

lemma includes_characterization (s pat : String) (hne : pat.data ≠ []) :
    includes s pat = true ↔ pat.data <:+: s.data := by
  have h := countSubstr_eq_zero_iff pat.data hne s.data
  simp only [includes, bne_iff_ne, ne_eq]
  constructor
  · intro h2
    by_contra hinf
    exact h2 (h.mpr hinf)
  · intro hinf h0
    exact (h.mp h0) hinf

lemma prefix_append_cons_iff : ∀ (pat a : List Char) {c : Char}, c ∉ pat →
    ∀ b : List Char, (pat <+: (a ++ c :: b) ↔ pat <+: a)
  | [], a, c, hc, b => by simp
  | p :: pt, [], c, hc, b => by
    simp only [List.nil_append, List.cons_prefix_cons]
    constructor
    · rintro ⟨rfl, -⟩
      exact absurd (List.mem_cons_self _ _) hc
    · intro h
      simp at h
  | p :: pt, x :: a2, c, hc, b => by
    simp only [List.cons_append, List.cons_prefix_cons]
    rw [prefix_append_cons_iff pt a2 (fun hmem => hc (List.mem_cons_of_mem _ hmem)) b]

lemma countSubstr_append_cons (pat : List Char) (hne : pat ≠ []) {c : Char}
    (hc : c ∉ pat) (b : List Char) (a : List Char) :
    countSubstr (a ++ c :: b) pat = countSubstr a pat + countSubstr b pat := by
  induction a with
  | nil =>
    simp only [List.nil_append, countSubstr]
    have hp : pat.isPrefixOf (c :: b) = false := by
      rw [Bool.eq_false_iff]
      intro hh
      have hpre := List.isPrefixOf_iff_prefix.mp hh
      cases pat with
      | nil => exact hne rfl
      | cons p pt =>
        rw [List.cons_prefix_cons] at hpre
        obtain ⟨rfl, -⟩ := hpre
        exact hc (List.mem_cons_self _ _)
    have hpe : pat.isEmpty = false := by
      cases pat with
      | nil => exact absurd rfl hne
      | cons a l => rfl
    simp [hp, hpe]
  | cons x a2 ih =>
    simp only [List.cons_append, countSubstr, List.append_eq]
    rw [ih]
    have hiff := prefix_append_cons_iff pat (x :: a2) hc b
    simp only [List.cons_append] at hiff
    simp only [List.isPrefixOf_iff_prefix, hiff]
    omega

lemma infix_ws_prepend (pat w t : List Char) (ph : Char) (pt2 : List Char)
    (hpe : pat = ph :: pt2) (hph : ¬ ph.isWhitespace = true)
    (hw : ∀ x ∈ w, x.isWhitespace = true) :
    pat <:+: (w ++ t) ↔ pat <:+: t := by
  induction w with
  | nil => simp
  | cons x w2 ih =>
    have hx : x.isWhitespace = true := hw x (List.mem_cons_self _ _)
    have hw2 : ∀ y ∈ w2, y.isWhitespace = true :=
      fun y hy => hw y (List.mem_cons_of_mem _ hy)
    rw [List.cons_append, List.infix_cons_iff]
    constructor
    · rintro (hpre | hinf)
      · subst hpe
        rw [List.cons_prefix_cons] at hpre
        exact absurd (by rw [hpre.1]; exact hx) hph
      · exact (ih hw2).mp hinf
    · intro hinf
      exact Or.inr ((ih hw2).mpr hinf)

lemma infix_ws_append (pat t w : List Char) (qh : Char) (qt : List Char)
    (hpe : pat.reverse = qh :: qt) (hqh : ¬ qh.isWhitespace = true)
    (hw : ∀ x ∈ w, x.isWhitespace = true) :
    pat <:+: (t ++ w) ↔ pat <:+: t := by
  constructor
  · intro h
    have h2 : pat.reverse <:+: (t ++ w).reverse := List.reverse_infix.mpr h
    rw [List.reverse_append] at h2
    have h3 : pat.reverse <:+: t.reverse :=
      (infix_ws_prepend pat.reverse w.reverse t.reverse qh qt hpe hqh
        (fun x hx => hw x (List.mem_reverse.mp hx))).mp h2
    exact List.reverse_infix.mp h3
  · intro h
    obtain ⟨u, v, huv⟩ := h
    exact ⟨u, v ++ w, by rw [← huv]; simp⟩

lemma jsTrim_decomp (s : String) :
    ∃ w1 w2, s.data = w1 ++ ((jsTrim s).data ++ w2) ∧
      (∀ c ∈ w1, c.isWhitespace = true) ∧ (∀ c ∈ w2, c.isWhitespace = true) := by
  refine ⟨s.data.takeWhile Char.isWhitespace,
    ((s.data.dropWhile Char.isWhitespace).reverse.takeWhile Char.isWhitespace).reverse,
    ?_, ?_, ?_⟩
  · have h1 : s.data
        = s.data.takeWhile Char.isWhitespace ++ s.data.dropWhile Char.isWhitespace :=
      (List.takeWhile_append_dropWhile Char.isWhitespace s.data).symm
    conv_lhs => rw [h1]
    congr 1
    have h2 : s.data.dropWhile Char.isWhitespace
        = ((s.data.dropWhile Char.isWhitespace).reverse.dropWhile Char.isWhitespace).reverse
          ++ ((s.data.dropWhile Char.isWhitespace).reverse.takeWhile Char.isWhitespace).reverse := by
      have h3 : (s.data.dropWhile Char.isWhitespace).reverse
          = (s.data.dropWhile Char.isWhitespace).reverse.takeWhile Char.isWhitespace
            ++ (s.data.dropWhile Char.isWhitespace).reverse.dropWhile Char.isWhitespace :=
        (List.takeWhile_append_dropWhile Char.isWhitespace
          (s.data.dropWhile Char.isWhitespace).reverse).symm
      conv_lhs => rw [← List.reverse_reverse (s.data.dropWhile Char.isWhitespace)]
      conv_lhs => rw [h3]
      rw [List.reverse_append]
    conv_lhs => rw [h2]
    rfl
  · intro c hc
    exact List.all_eq_true.mp List.all_takeWhile c hc
  · intro c hc
    exact List.all_eq_true.mp List.all_takeWhile c (List.mem_reverse.mp hc)

/-- JS `includes` sees the same substrings in `s` and `s.trim()` whenever the
pattern starts and ends with a non-whitespace character. -/
lemma includes_jsTrim_eq (s pat : String) (ph qh : Char) (pt2 qt : List Char)
    (hp : pat.data = ph :: pt2) (hq : pat.data.reverse = qh :: qt)
    (hph : ¬ ph.isWhitespace = true) (hqh : ¬ qh.isWhitespace = true) :
    includes (jsTrim s) pat = includes s pat := by
  have hne : pat.data ≠ [] := by rw [hp]; simp
  obtain ⟨w1, w2, hdecomp, hw1, hw2⟩ := jsTrim_decomp s
  have hiff : (pat.data <:+: (jsTrim s).data) ↔ (pat.data <:+: s.data) := by
    rw [hdecomp,
      infix_ws_prepend pat.data w1 ((jsTrim s).data ++ w2) ph pt2 hp hph hw1,
      infix_ws_append pat.data (jsTrim s).data w2 qh qt hq hqh hw2]
  by_cases h2 : pat.data <:+: s.data
  · have a1 : includes s pat = true := (includes_characterization s pat hne).mpr h2
    have a2 : includes (jsTrim s) pat = true :=
      (includes_characterization _ pat hne).mpr (hiff.mpr h2)
    rw [a1, a2]
  · have a1 : includes s pat = false := by
      rw [Bool.eq_false_iff]
      exact fun hh => h2 ((includes_characterization s pat hne).mp hh)
    have a2 : includes (jsTrim s) pat = false := by
      rw [Bool.eq_false_iff]
      exact fun hh => h2 (hiff.mp ((includes_characterization _ pat hne).mp hh))
    rw [a1, a2]

/-! ## Rank machinery for the fused list (C5)

The fused rank of a paper is its index in the stably sorted combined bucket
list.  The lemmas below characterize that index by counting the buckets that
sort strictly above (bigger score, or equal score and earlier insertion),
using the stability of `mergeSort`. -/

/-- One unfolding step of `bucketFold`. -/
lemma bucketFold_cons (m : List (String × Paper × ℝ)) (e : String × Paper × ℝ)
    (es : List (String × Paper × ℝ)) :
    bucketFold m (e :: es) = bucketFold (bucketAdd m e.1 e.2.1 e.2.2) es := rfl

/-- Position of a key in the insertion-ordered key list. -/
def keyPos (m : List (String × Paper × ℝ)) (k : String) : ℕ :=
  (bucketKeys m).findIdx (fun s => s == k)

/-- The key sequence of one candidate list, as consumed by the RRF loops. -/
def keysOf (l : List SearchResult) : List String :=
  l.enum.map (fun q => idKey q.2.paper.id q.1)

lemma rrfEvents_keys (w : ℝ) (l : List SearchResult) :
    (rrfEvents w l).map (fun e => e.1) = keysOf l := by
  simp only [rrfEvents, keysOf, List.map_map]
  rfl

/-- Normalization rescales scores but keeps the paper (hence key) sequence. -/
lemma keysOf_normalizeScores (l : List SearchResult) :
    keysOf (normalizeScores l) = keysOf l := by
  cases l with
  | nil => rfl
  | cons r rs =>
    simp only [normalizeScores, keysOf]
    rw [List.enum_map]
    rw [List.map_map]
    apply List.map_congr_left
    rintro ⟨i, x⟩ _
    rfl

lemma rrfContrib_nonneg (l : List SearchResult) (key : String) :
    0 ≤ rrfContrib l key := by
  apply List.sum_nonneg
  intro x hx
  obtain ⟨q, hq, rfl⟩ := List.mem_map.mp hx
  by_cases h : idKey q.2.paper.id q.1 = key
  · simp only [h, if_true]
    positivity
  · simp [h]

lemma rrfContrib_eq_zero_of_not_mem (l : List SearchResult) (key : String)
    (h : key ∉ keysOf l) : rrfContrib l key = 0 := by
  apply List.sum_eq_zero
  intro x hx
  obtain ⟨q, hq, rfl⟩ := List.mem_map.mp hx
  have hne : idKey q.2.paper.id q.1 ≠ key := by
    intro heq
    exact h (heq ▸ List.mem_map_of_mem _ hq)
  simp [hne]

lemma bucketKeys_bucketFold_eq (events1 : List (String × Paper × ℝ)) :
    ∀ (events2 m1 m2 : List (String × Paper × ℝ)),
    bucketKeys m1 = bucketKeys m2 →
    events1.map (fun e => e.1) = events2.map (fun e => e.1) →
    bucketKeys (bucketFold m1 events1) = bucketKeys (bucketFold m2 events2) := by
  induction events1 with
  | nil =>
    intro events2 m1 m2 hm he
    cases events2 with
    | nil => exact hm
    | cons e es => simp at he
  | cons e es ih =>
    intro events2 m1 m2 hm he
    cases events2 with
    | nil => simp at he
    | cons e2 es2 =>
      simp only [List.map_cons, List.cons.injEq] at he
      obtain ⟨hk, hrest⟩ := he
      rw [bucketFold_cons, bucketFold_cons]
      apply ih es2 _ _ _ hrest
      rw [bucketKeys_bucketAdd, bucketKeys_bucketAdd, hm, hk]

/-- The combined key list does not depend on the weights. -/
lemma bucketKeys_rrfCombine_weights (nk ns : List SearchResult)
    (kw sw kw2 sw2 : ℝ) :
    bucketKeys (rrfCombine nk ns kw sw) = bucketKeys (rrfCombine nk ns kw2 sw2) := by
  apply bucketKeys_bucketFold_eq
  · apply bucketKeys_bucketFold_eq
    · rfl
    · rw [rrfEvents_keys, rrfEvents_keys]
  · rw [rrfEvents_keys, rrfEvents_keys]

/-- A key of the keyword list owns a combined bucket. -/
lemma key_mem_rrfCombine (nk ns : List SearchResult) (kw sw : ℝ) (key : String)
    (h : key ∈ keysOf nk) :
    key ∈ bucketKeys (rrfCombine nk ns kw sw) := by
  simp only [rrfCombine]
  rw [mem_bucketKeys_bucketFold, mem_bucketKeys_bucketFold]
  rw [rrfEvents_keys, rrfEvents_keys]
  exact Or.inl (Or.inr h)

/-- The combined bucket keys are duplicate-free. -/
lemma nodup_bucketKeys_rrfCombine (nk ns : List SearchResult) (kw sw : ℝ) :
    (bucketKeys (rrfCombine nk ns kw sw)).Nodup := by
  simp only [rrfCombine]
  apply nodup_bucketKeys_bucketFold
  apply nodup_bucketKeys_bucketFold
  simp [bucketKeys]

/-- With duplicate-free keys, each entry holds exactly its key's score. -/
lemma bucketScore_entry (l : List (String × Paper × ℝ))
    (hnd : (bucketKeys l).Nodup) (q : String × Paper × ℝ) (hq : q ∈ l) :
    bucketScore l q.1 = q.2.2 := by
  induction l with
  | nil => simp at hq
  | cons c t ih =>
    have hnd0 : (c.1 :: bucketKeys t).Nodup := hnd
    have hnotmem := (List.nodup_cons.mp hnd0).1
    have hnd2 := (List.nodup_cons.mp hnd0).2
    rcases List.mem_cons.mp hq with rfl | hq2
    · simp [bucketScore, List.find?_cons]
    · have hc : c.1 ≠ q.1 := by
        intro heq
        exact hnotmem (heq ▸ List.mem_map_of_mem _ hq2)
      simp only [bucketScore, List.find?_cons]
      have hcb : (c.1 == q.1) = false := by simp [hc]
      rw [hcb]
      exact ih hnd2 hq2

/-- Any two distinct members of a list occur in one of the two pair orders. -/
lemma pair_sublist_of_mem {α : Type} {a b : α} (hab : a ≠ b) :
    ∀ {l : List α}, a ∈ l → b ∈ l → [a, b] <+ l ∨ [b, a] <+ l := by
  intro l
  induction l with
  | nil => intro h; simp at h
  | cons c t ih =>
    intro ha hb
    rcases List.mem_cons.mp ha with rfl | ha2
    · have hb2 : b ∈ t := by
        rcases List.mem_cons.mp hb with rfl | h2
        · exact absurd rfl hab
        · exact h2
      exact Or.inl ((List.singleton_sublist.mpr hb2).cons₂ a)
    · rcases List.mem_cons.mp hb with rfl | hb2
      · exact Or.inr ((List.singleton_sublist.mpr ha2).cons₂ b)
      · rcases ih ha2 hb2 with h | h
        · exact Or.inl (h.cons c)
        · exact Or.inr (h.cons c)

lemma keyPos_cons (c : String × Paper × ℝ) (t : List (String × Paper × ℝ))
    (k : String) :
    keyPos (c :: t) k = if (c.1 == k) = true then 0 else keyPos t k + 1 := by
  simp only [keyPos, bucketKeys, List.map_cons, List.findIdx_cons]
  cases h : (c.1 == k) with
  | true => simp [h]
  | false => simp [h]

/-- In a bucket list with duplicate-free keys, the earlier entry of a pair
sublist has the smaller key position. -/
lemma keyPos_lt_of_pair_sublist (a b : String × Paper × ℝ) :
    ∀ (l : List (String × Paper × ℝ)), (bucketKeys l).Nodup →
    [a, b] <+ l → keyPos l a.1 < keyPos l b.1 := by
  intro l
  induction l with
  | nil =>
    intro _ h
    simp at h
  | cons c t ih =>
    intro hnd hab
    have hnd0 : (c.1 :: bucketKeys t).Nodup := hnd
    have hcnot := (List.nodup_cons.mp hnd0).1
    have hndt := (List.nodup_cons.mp hnd0).2
    rcases List.sublist_cons_iff.mp hab with h | ⟨r, hr, hrt⟩
    · have ha : a ∈ t := h.subset (by simp)
      have hb : b ∈ t := h.subset (by simp)
      have hca : (c.1 == a.1) = false := by
        simp only [beq_eq_false_iff_ne, ne_eq]
        intro heq
        exact hcnot (heq ▸ List.mem_map_of_mem _ ha)
      have hcb : (c.1 == b.1) = false := by
        simp only [beq_eq_false_iff_ne, ne_eq]
        intro heq
        exact hcnot (heq ▸ List.mem_map_of_mem _ hb)
      rw [keyPos_cons, keyPos_cons]
      simp only [hca, hcb, Bool.false_eq_true, if_false]
      have := ih hndt h
      omega
    · obtain ⟨h1, h2⟩ : a = c ∧ [b] = r := by
        injection hr with h1 h2
        exact ⟨h1, h2⟩
      subst h1
      have hb : b ∈ t := by
        rw [← h2] at hrt
        exact List.singleton_sublist.mp hrt
      have hab1 : (a.1 == b.1) = false := by
        simp only [beq_eq_false_iff_ne, ne_eq]
        intro heq
        exact hcnot (heq ▸ List.mem_map_of_mem _ hb)
      rw [keyPos_cons, keyPos_cons]
      simp [hab1]

/-- No entry of the left part of `u ++ e :: v` can follow `e` as a pair
sublist when the keys are duplicate-free. -/
lemma not_pair_middle_left (u v : List (String × Paper × ℝ))
    (e x : String × Paper × ℝ)
    (hnd : (bucketKeys (u ++ e :: v)).Nodup) (hx : x ∈ u) :
    ¬ [e, x] <+ (u ++ e :: v) := by
  intro hsub
  have hnd2 : (List.map (fun q => q.1) u ++ e.1 :: List.map (fun q => q.1) v).Nodup := by
    simpa [bucketKeys, List.map_append] using hnd
  rw [List.nodup_append] at hnd2
  obtain ⟨hu, hev, hdisj⟩ := hnd2
  have he_u : e ∉ u := by
    intro hmem
    exact hdisj (List.mem_map_of_mem _ hmem) (List.mem_cons_self _ _)
  have hx_v : x ∉ v := by
    intro hmem
    exact hdisj (List.mem_map_of_mem _ hx)
      (List.mem_cons_of_mem _ (List.mem_map_of_mem _ hmem))
  have he_v : e ∉ v := by
    intro hmem
    exact (List.nodup_cons.mp hev).1 (List.mem_map_of_mem _ hmem)
  rcases List.sublist_append_iff.mp hsub with ⟨l₁, l₂, heq, h1, h2⟩
  cases l₁ with
  | nil =>
    have hl2 : l₂ = [e, x] := by simpa using heq.symm
    subst hl2
    rcases List.sublist_cons_iff.mp h2 with h | ⟨r, hr, hrt⟩
    · exact he_v (h.subset (List.mem_cons_self _ _))
    · have hxv : x ∈ v := by
        obtain ⟨-, h4⟩ : e = e ∧ [x] = r := by
          injection hr with h3 h4
          exact ⟨h3, h4⟩
        rw [← h4] at hrt
        exact List.singleton_sublist.mp hrt
      exact hx_v hxv
  | cons y l₁2 =>
    have hy : e = y := by injection heq
    subst hy
    exact he_u (h1.subset (List.mem_cons_self _ _))

/-- No entry of the right part of `u ++ e :: v` can precede `e` as a pair
sublist when the keys are duplicate-free. -/
lemma not_pair_middle_right (u v : List (String × Paper × ℝ))
    (e x : String × Paper × ℝ)
    (hnd : (bucketKeys (u ++ e :: v)).Nodup) (hx : x ∈ v) :
    ¬ [x, e] <+ (u ++ e :: v) := by
  intro hsub
  have hnd2 : (List.map (fun q => q.1) u ++ e.1 :: List.map (fun q => q.1) v).Nodup := by
    simpa [bucketKeys, List.map_append] using hnd
  rw [List.nodup_append] at hnd2
  obtain ⟨hu, hev, hdisj⟩ := hnd2
  have he_v : e ∉ v := by
    intro hmem
    exact (List.nodup_cons.mp hev).1 (List.mem_map_of_mem _ hmem)
  rcases List.sublist_append_iff.mp hsub with ⟨l₁, l₂, heq, h1, h2⟩
  cases l₁ with
  | nil =>
    have hl2 : l₂ = [x, e] := by simpa using heq.symm
    subst hl2
    rcases List.sublist_cons_iff.mp h2 with h | ⟨r, hr, hrt⟩
    · exact he_v (h.subset (by simp))
    · have hxe : x = e := by injection hr
      exact he_v (hxe ▸ hx)
  | cons y l₁2 =>
    have hy : x = y := by injection heq
    rw [← hy] at h1
    exact hdisj (List.mem_map_of_mem _ (h1.subset (List.mem_cons_self _ _)))
      (List.mem_cons_of_mem _ (List.mem_map_of_mem _ hx))

lemma findIdx_append_key (u : List (String × Paper × ℝ)) (e : String × Paper × ℝ)
    (v : List (String × Paper × ℝ)) (key : String)
    (hu : ∀ x ∈ u, ¬ x.1 = key) (he : e.1 = key) :
    (u ++ e :: v).findIdx (fun q => q.1 == key) = u.length := by
  induction u with
  | nil =>
    simp only [List.nil_append, List.findIdx_cons]
    have hb : (e.1 == key) = true := by simp [he]
    simp [hb]
  | cons x u2 ih =>
    have hx : (x.1 == key) = false := by
      simp only [beq_eq_false_iff_ne, ne_eq]
      exact hu x (List.mem_cons_self _ _)
    simp only [List.cons_append, List.findIdx_cons, hx]
    rw [ih (fun y hy => hu y (List.mem_cons_of_mem _ hy))]
    simp

/-- The descending-by-score comparator is transitive. -/
lemma descLe_trans {α : Type} (f : α → ℝ) : ∀ (a b c : α),
    (fun x y => decide (f y ≤ f x)) a b → (fun x y => decide (f y ≤ f x)) b c →
    (fun x y => decide (f y ≤ f x)) a c := by
  intro a b c hab hbc
  simp only [decide_eq_true_eq] at *
  exact le_trans hbc hab

/-- The descending-by-score comparator is total. -/
lemma descLe_total {α : Type} (f : α → ℝ) : ∀ (a b : α),
    ((fun x y => decide (f y ≤ f x)) a b || (fun x y => decide (f y ≤ f x)) b a) := by
  intro a b
  simp only [Bool.or_eq_true, decide_eq_true_eq]
  exact le_total (f b) (f a)

/-- A bucket sorts strictly above `key` when its score is bigger, or equal
with an earlier insertion position (this is where JS sort stability enters). -/
def keyAboveEntry (l : List (String × Paper × ℝ)) (key : String)
    (q : String × Paper × ℝ) : Prop :=
  bucketScore l key < q.2.2 ∨ (q.2.2 = bucketScore l key ∧ keyPos l q.1 < keyPos l key)

/-- Decidability of the strictly-above relation. -/
noncomputable instance keyAboveEntryDecidable (l : List (String × Paper × ℝ))
    (key : String) (q : String × Paper × ℝ) : Decidable (keyAboveEntry l key q) := by
  unfold keyAboveEntry
  infer_instance

/-- Index of `key` in the stable descending sort of a duplicate-free bucket
list: exactly the number of buckets that sort strictly above it. -/
lemma findIdx_mergeSort_eq_countP (l : List (String × Paper × ℝ))
    (hnd : (bucketKeys l).Nodup) (key : String) (hmem : key ∈ bucketKeys l) :
    ((l.mergeSort (fun a b => decide (b.2.2 ≤ a.2.2))).findIdx (fun q => q.1 == key))
      = l.countP (fun q => decide (keyAboveEntry l key q)) := by
  obtain ⟨e, he_mem, he_key⟩ : ∃ e ∈ l, e.1 = key := by
    obtain ⟨e, he, hk⟩ := List.mem_map.mp hmem
    exact ⟨e, he, hk⟩
  have htrans := descLe_trans (fun q : String × Paper × ℝ => q.2.2)
  have htotal := descLe_total (fun q : String × Paper × ℝ => q.2.2)
  have hmem_s : e ∈ l.mergeSort (fun a b => decide (b.2.2 ≤ a.2.2)) :=
    List.mem_mergeSort.mpr he_mem
  obtain ⟨u, v, hs⟩ := List.append_of_mem hmem_s
  have hperm : (l.mergeSort (fun a b => decide (b.2.2 ≤ a.2.2))) ~ l :=
    List.mergeSort_perm l _
  have hnd_s : (bucketKeys (u ++ e :: v)).Nodup := by
    have h0 : (List.map (fun q => q.1) l).Nodup := by
      simpa [bucketKeys] using hnd
    have h1 := ((hperm.map (fun q => q.1)).nodup_iff).mpr h0
    rw [hs] at h1
    simpa [bucketKeys] using h1
  have hsorted : (u ++ e :: v).Pairwise
      (fun a b => (decide (b.2.2 ≤ a.2.2)) = true) := by
    rw [← hs]
    exact List.sorted_mergeSort htrans htotal l
  rw [List.pairwise_append] at hsorted
  obtain ⟨hsu, hsev, hsuev⟩ := hsorted
  -- keys in `u` and `v` differ from `key`
  have hnd_app : (List.map (fun q => q.1) u
      ++ e.1 :: List.map (fun q => q.1) v).Nodup := by
    simpa [bucketKeys, List.map_append] using hnd_s
  rw [List.nodup_append] at hnd_app
  obtain ⟨hku, hkev, hkdisj⟩ := hnd_app
  have hu_keys : ∀ x ∈ u, ¬ x.1 = key := by
    intro x hxu hxk
    have h1 : e.1 ∈ List.map (fun q => q.1) u := by
      rw [he_key, ← hxk]
      exact List.mem_map_of_mem _ hxu
    exact hkdisj h1 (List.mem_cons_self _ _)
  have hv_keys : ∀ x ∈ v, ¬ x.1 = key := by
    intro x hxv hxk
    have : e.1 ∈ List.map (fun q => q.1) v := by
      rw [he_key, ← hxk]
      exact List.mem_map_of_mem _ hxv
    exact (List.nodup_cons.mp hkev).1 this
  have hscore_e : bucketScore l key = e.2.2 := by
    rw [← he_key]
    exact bucketScore_entry l hnd e he_mem
  have hmem_l : ∀ x, x ∈ u ∨ x ∈ v → x ∈ l := by
    intro x hx
    have : x ∈ u ++ e :: v := by
      rcases hx with h | h
      · exact List.mem_append_left _ h
      · exact List.mem_append_right _ (List.mem_cons_of_mem _ h)
    rw [← hs] at this
    exact List.mem_mergeSort.mp this
  -- every entry of `u` is strictly above `key`
  have hu_above : ∀ x ∈ u, keyAboveEntry l key x := by
    intro x hxu
    have hxe : (decide (e.2.2 ≤ x.2.2)) = true :=
      hsuev x hxu e (List.mem_cons_self _ _)
    have hle : e.2.2 ≤ x.2.2 := of_decide_eq_true hxe
    rcases lt_or_eq_of_le hle with hlt | heq2
    · exact Or.inl (by rw [hscore_e]; exact hlt)
    · right
      refine ⟨by rw [hscore_e, heq2], ?_⟩
      have hxne : x ≠ e := by
        intro h
        exact hu_keys x hxu (h ▸ he_key)
      rcases pair_sublist_of_mem hxne (hmem_l x (Or.inl hxu)) he_mem with hp | hp
      · have := keyPos_lt_of_pair_sublist x e l hnd hp
        rw [← he_key]
        exact this
      · exfalso
        have hdesc_ex : (decide (x.2.2 ≤ e.2.2)) = true :=
          decide_eq_true (le_of_eq heq2.symm)
        have hstab := List.pair_sublist_mergeSort htrans htotal hdesc_ex hp
        rw [hs] at hstab
        exact not_pair_middle_left u v e x hnd_s hxu hstab
  -- `e` itself is not above `key`
  have he_not : ¬ keyAboveEntry l key e := by
    intro h
    rcases h with h | ⟨h1, h2⟩
    · rw [hscore_e] at h
      exact lt_irrefl _ h
    · rw [he_key] at h2
      exact lt_irrefl _ h2
  -- no entry of `v` is above `key`
  have hv_not : ∀ x ∈ v, ¬ keyAboveEntry l key x := by
    intro x hxv h
    have hxe : (decide (x.2.2 ≤ e.2.2)) = true :=
      (List.pairwise_cons.mp hsev).1 x hxv
    have hle : x.2.2 ≤ e.2.2 := of_decide_eq_true hxe
    rcases h with h | ⟨h1, h2⟩
    · rw [hscore_e] at h
      exact absurd hle (not_le.mpr h)
    · have hxne : x ≠ e := by
        intro hh
        exact hv_keys x hxv (hh ▸ he_key)
      rcases pair_sublist_of_mem hxne (hmem_l x (Or.inr hxv)) he_mem with hp | hp
      · have hdesc_xe : (decide (e.2.2 ≤ x.2.2)) = true :=
          decide_eq_true (le_of_eq (by rw [h1, hscore_e]))
        have hstab := List.pair_sublist_mergeSort htrans htotal hdesc_xe hp
        rw [hs] at hstab
        exact not_pair_middle_right u v e x hnd_s hxv hstab
      · have := keyPos_lt_of_pair_sublist e x l hnd hp
        rw [← he_key] at h2
        omega
  -- assemble the two sides
  rw [hs, findIdx_append_key u e v key hu_keys he_key]
  have hcount : l.countP (fun q => decide (keyAboveEntry l key q))
      = (u ++ e :: v).countP (fun q => decide (keyAboveEntry l key q)) := by
    have h1 := hperm.countP_eq (fun q => decide (keyAboveEntry l key q))
    rw [hs] at h1
    exact h1.symm
  rw [hcount, List.countP_append, List.countP_cons]
  have hcu : u.countP (fun q => decide (keyAboveEntry l key q)) = u.length := by
    rw [List.countP_eq_length]
    intro x hx
    exact decide_eq_true (hu_above x hx)
  have hcv : v.countP (fun q => decide (keyAboveEntry l key q)) = 0 := by
    rw [List.countP_eq_zero]
    intro x hx
    simp only [decide_eq_true_eq]
    exact hv_not x hx
  have hce : (decide (keyAboveEntry l key e)) = false := by
    simp only [decide_eq_false_iff_not]
    exact he_not
  rw [hcu, hcv, hce]
  simp

/-- Key-level version of `keyAboveEntry` on a duplicate-free bucket list. -/
def keyAbove (l : List (String × Paper × ℝ)) (key k : String) : Prop :=
  bucketScore l key < bucketScore l k ∨
    (bucketScore l k = bucketScore l key ∧ keyPos l k < keyPos l key)

/-- Decidability of the key-level strictly-above relation. -/
noncomputable instance keyAboveDecidable (l : List (String × Paper × ℝ))
    (key k : String) : Decidable (keyAbove l key k) := by
  unfold keyAbove
  infer_instance

/-- On a duplicate-free bucket list, counting strictly-above entries equals
counting strictly-above keys. -/
lemma countP_keyAbove (l : List (String × Paper × ℝ)) (hnd : (bucketKeys l).Nodup)
    (key : String) :
    l.countP (fun q => decide (keyAboveEntry l key q))
      = (bucketKeys l).countP (fun k => decide (keyAbove l key k)) := by
  have h1 : (bucketKeys l).countP (fun k => decide (keyAbove l key k))
      = l.countP (fun q => decide (keyAbove l key q.1)) := by
    simp only [bucketKeys, List.countP_map]
    rfl
  rw [h1]
  apply List.countP_congr
  intro q hq
  have hsc : bucketScore l q.1 = q.2.2 := bucketScore_entry l hnd q hq
  simp only [decide_eq_true_eq]
  unfold keyAboveEntry keyAbove
  rw [hsc]

/-- Real arithmetic of the weight shift, strict form: if a bucket with keyword
contribution `Ak` and semantic contribution `Bk ≥ 0` strictly beats a
semantic-free key `Akey` after moving `d > 0` of weight from semantic to
keyword, it already strictly beat it before. -/
lemma weight_shift_arith (Ak Bk Akey kw sw d : ℝ) (hkw : 0 < kw)
    (hsum : 0 ≤ kw + sw) (hd : 0 < d) (hBk : 0 ≤ Bk)
    (hstrict : Akey * (kw + d) < Ak * (kw + d) + Bk * (sw - d)) :
    Akey * kw < Ak * kw + Bk * sw := by
  by_contra hc
  push_neg at hc
  have h1 : Akey * d < (Ak - Bk) * d := by nlinarith
  have h2 : Akey < Ak - Bk := lt_of_mul_lt_mul_right h1 hd.le
  have h3 : Akey * kw < (Ak - Bk) * kw := mul_lt_mul_of_pos_right h2 hkw
  have h4 : 0 ≤ Bk * (kw + sw) := mul_nonneg hBk hsum
  nlinarith

/-- Real arithmetic of the weight shift, non-strict form. -/
lemma weight_shift_arith_le (Ak Bk Akey kw sw d : ℝ) (hkw : 0 < kw)
    (hsum : 0 ≤ kw + sw) (hd : 0 < d) (hBk : 0 ≤ Bk)
    (hge : Akey * (kw + d) ≤ Ak * (kw + d) + Bk * (sw - d)) :
    Akey * kw ≤ Ak * kw + Bk * sw := by
  by_contra hc
  push_neg at hc
  have h1 : Akey * d < (Ak - Bk) * d := by nlinarith
  have h2 : Akey < Ak - Bk := lt_of_mul_lt_mul_right h1 hd.le
  have h3 : Akey * kw < (Ak - Bk) * kw := mul_lt_mul_of_pos_right h2 hkw
  have h4 : 0 ≤ Bk * (kw + sw) := mul_nonneg hBk hsum
  nlinarith

/-- Shifting `d > 0` of weight from the semantic list to the keyword list
never promotes a bucket above a key that receives no semantic contribution. -/
lemma keyAbove_weight_shift (nk ns : List SearchResult) (kw sw d : ℝ)
    (hkw : 0 < kw) (hsw : 0 ≤ sw) (hd : 0 < d) (key : String)
    (hBkey : rrfContrib ns key = 0) (k : String)
    (h : keyAbove (rrfCombine nk ns (kw + d) (sw - d)) key k) :
    keyAbove (rrfCombine nk ns kw sw) key k := by
  have hsum : (0:ℝ) ≤ kw + sw := by linarith
  have hBk : 0 ≤ rrfContrib ns k := rrfContrib_nonneg ns k
  have hpos : ∀ s, keyPos (rrfCombine nk ns (kw + d) (sw - d)) s
      = keyPos (rrfCombine nk ns kw sw) s := by
    intro s
    simp only [keyPos, bucketKeys_rrfCombine_weights nk ns (kw + d) (sw - d) kw sw]
  unfold keyAbove at h ⊢
  rw [bucketScore_rrfCombine, bucketScore_rrfCombine, hBkey, hpos, hpos] at h
  rw [bucketScore_rrfCombine, bucketScore_rrfCombine, hBkey]
  rcases lt_trichotomy (rrfContrib nk key * kw + 0 * sw)
      (rrfContrib nk k * kw + rrfContrib ns k * sw) with hlt | heq | hgt
  · exact Or.inl hlt
  · rcases h with hstrict | ⟨_, hposlt⟩
    · exfalso
      have := weight_shift_arith (rrfContrib nk k) (rrfContrib ns k)
        (rrfContrib nk key) kw sw d hkw hsum hd hBk (by linarith)
      linarith
    · exact Or.inr ⟨by linarith, hposlt⟩
  · exfalso
    have hge : rrfContrib nk key * (kw + d)
        ≤ rrfContrib nk k * (kw + d) + rrfContrib ns k * (sw - d) := by
      rcases h with hstrict | ⟨hteq, _⟩
      · linarith
      · linarith
    have := weight_shift_arith_le (rrfContrib nk k) (rrfContrib ns k)
      (rrfContrib nk key) kw sw d hkw hsum hd hBk hge
    linarith

/-- The fully fused, stably sorted bucket list of `hybridSearch`:
`hybridRanked` is its `topK`-truncation retagged `hybrid`. -/
noncomputable def fusedSorted (keywordResults semanticResults : List SearchResult)
    (keywordWeight semanticWeight : ℝ) : List (String × Paper × ℝ) :=
  (rrfCombine (normalizeScores keywordResults) (normalizeScores semanticResults)
    keywordWeight semanticWeight).mergeSort (fun a b => decide (b.2.2 ≤ a.2.2))

/-- Fused rank of a combination key: its position in the sorted fused list. -/
noncomputable def fusedRank (keywordResults semanticResults : List SearchResult)
    (keywordWeight semanticWeight : ℝ) (key : String) : ℕ :=
  (fusedSorted keywordResults semanticResults keywordWeight semanticWeight).findIdx
    (fun e => e.1 == key)

/-- The fused rank of a key of the keyword list counts the keys strictly
above it. -/
lemma fusedRank_eq_count (keywordResults semanticResults : List SearchResult)
    (kw sw : ℝ) (key : String) (hmem : key ∈ keysOf keywordResults) :
    fusedRank keywordResults semanticResults kw sw key
      = (bucketKeys (rrfCombine (normalizeScores keywordResults)
            (normalizeScores semanticResults) kw sw)).countP
          (fun k => decide (keyAbove (rrfCombine (normalizeScores keywordResults)
            (normalizeScores semanticResults) kw sw) key k)) := by
  have hnd := nodup_bucketKeys_rrfCombine (normalizeScores keywordResults)
    (normalizeScores semanticResults) kw sw
  have hmem' : key ∈ bucketKeys (rrfCombine (normalizeScores keywordResults)
      (normalizeScores semanticResults) kw sw) :=
    key_mem_rrfCombine _ _ kw sw key (by rwa [keysOf_normalizeScores])
  unfold fusedRank fusedSorted
  rw [findIdx_mergeSort_eq_countP _ hnd key hmem', countP_keyAbove _ hnd key]

/-- A paper with a truthy id. -/
def demoPaper : Paper :=
  { id := some "p1", arxiv_id := "1706.03762", title := "Attention Is All You Need",
    authors := ["Vaswani"], abstract := "tf", category := some "cs.CL",
    published_date := "2017-06-12", pdf_url := "https://arxiv.org/pdf/1706.03762" }

/-- A second paper with a truthy id. -/
def demoPaper2 : Paper :=
  { id := some "p2", arxiv_id := "1810.04805", title := "BERT",
    authors := ["Devlin"], abstract := "lm", category := some "cs.CL",
    published_date := "2018-10-11", pdf_url := "https://arxiv.org/pdf/1810.04805" }

/-- A paper whose id is absent (falsy). -/
def noIdPaperA : Paper :=
  { id := none, arxiv_id := "2001.00001", title := "Paper A", authors := ["A"],
    abstract := "a", category := none, published_date := "2020-01-01", pdf_url := "ua" }

/-- A different paper whose id is absent (falsy). -/
def noIdPaperB : Paper :=
  { id := none, arxiv_id := "2002.00002", title := "Paper B", authors := ["B"],
    abstract := "b", category := none, published_date := "2020-02-02", pdf_url := "ub" }

/-- A one-element result list whose (unique, hence maximal) score is negative. -/
noncomputable def negativeScoreList : List SearchResult :=
  [⟨demoPaper, -1, "keyword"⟩]

/-- C1 counterexample: both candidate lists hold the paper with id `p1` at
rank 0 and nowhere else, with `keywordWeight = semanticWeight = 0.5`; the
fused score the code accumulates from the two rank-0 positions is `1/61`
(each award `1/61` is multiplied by its list weight `0.5`), and `1/61` is not
the `2/61` the claim states. -/
theorem hybrid_rank0_score_counterexample :
    bucketScore (rrfCombine [⟨demoPaper, (1 : ℝ) / 2, "keyword"⟩]
      [⟨demoPaper, (4 : ℝ) / 5, "semantic"⟩] (1 / 2) (1 / 2)) "p1" = 1 / 61 ∧
    (1 / 61 : ℝ) ≠ 2 / 61 := by
  constructor
  · rw [rrf_rank0_both _ [] _ [] "p1" (1 / 2) (1 / 2) (by decide)
      (by intro q hq; simp at hq) (by decide) (by intro q hq; simp at hq)]
    norm_num
  · norm_num

/-- C1 (amended): in `hybridSearch` with `keywordWeight = semanticWeight
= 0.5`, a paper whose combination key occupies rank 0 of both candidate lists
and no later rank receives combined score exactly `0.5·(1/61) + 0.5·(1/61) =
1/61` from its two rank-0 positions, before any other contribution: the code
multiplies each reciprocal-rank award by its list weight. -/
theorem hybrid_rank0_both_lists_score (kwA : SearchResult) (kwT : List SearchResult)
    (semA : SearchResult) (semT : List SearchResult) (key : String)
    (hk0 : idKey kwA.paper.id 0 = key)
    (hkrest : ∀ q ∈ kwT.enumFrom 1, idKey q.2.paper.id q.1 ≠ key)
    (hs0 : idKey semA.paper.id 0 = key)
    (hsrest : ∀ q ∈ semT.enumFrom 1, idKey q.2.paper.id q.1 ≠ key) :
    bucketScore (rrfCombine (kwA :: kwT) (semA :: semT) (1 / 2) (1 / 2)) key
      = 1 / 61 := by
  rw [rrf_rank0_both kwA kwT semA semT key (1 / 2) (1 / 2) hk0 hkrest hs0 hsrest]
  norm_num

/-- C3 counterexample: a keyword row and a semantic row, both without a
paper id and both at rank 0 of their lists, are merged into one single
`unknown_0` bucket holding both RRF contributions, although the rows carry
distinct papers. -/
theorem fallback_key_merges_rows_counterexample :
    (rrfCombine [⟨noIdPaperA, (1 : ℝ) / 2, "keyword"⟩]
      [⟨noIdPaperB, (1 : ℝ) / 2, "semantic"⟩] (1 / 2) (1 / 2)).length = 1 ∧
    noIdPaperA ≠ noIdPaperB ∧
    bucketScore (rrfCombine [⟨noIdPaperA, (1 : ℝ) / 2, "keyword"⟩]
      [⟨noIdPaperB, (1 : ℝ) / 2, "semantic"⟩] (1 / 2) (1 / 2)) (fallbackKey 0)
      = 1 / 61 := by
  refine ⟨?_, by decide, ?_⟩
  · simp [rrfCombine, bucketFold, rrfEvents, bucketAdd, idKey, idTruthy,
      List.enum_cons, List.enum_nil, noIdPaperA, noIdPaperB]
  · rw [rrf_rank0_both _ [] _ [] (fallbackKey 0) (1 / 2) (1 / 2)
      (by simp [idKey, idTruthy, noIdPaperA]) (by intro q hq; simp at hq)
      (by simp [idKey, idTruthy, noIdPaperB]) (by intro q hq; simp at hq)]
    norm_num

/-- C3 (amended): the synthetic `unknown_<index>` fallback key separates
id-less rows at distinct indices (in particular, two id-less rows of the same
list are never merged), but an id-less keyword row and an id-less semantic
row at the same index receive the same fallback key and are accumulated in a
single combined bucket (which is the only bucket with that key). -/
theorem fallback_key_buckets :
    (∀ i j : ℕ, i ≠ j → fallbackKey i ≠ fallbackKey j) ∧
    (∀ (kwL semL : List SearchResult) (kw sw : ℝ) (i : ℕ)
      (rowK rowS : SearchResult),
      kwL.get? i = some rowK → idTruthy rowK.paper.id = false →
      semL.get? i = some rowS → idTruthy rowS.paper.id = false →
      idKey rowK.paper.id i = fallbackKey i ∧
      idKey rowS.paper.id i = fallbackKey i ∧
      fallbackKey i ∈ bucketKeys (rrfCombine kwL semL kw sw) ∧
      (bucketKeys (rrfCombine kwL semL kw sw)).count (fallbackKey i) = 1) := by
  constructor
  · intro i j hij h
    exact hij (fallbackKey_injective h)
  · intro kwL semL kw sw i rowK rowS hK hKid hS hSid
    have hkeyK : idKey rowK.paper.id i = fallbackKey i := by
      simp [idKey, hKid]
    have hkeyS : idKey rowS.paper.id i = fallbackKey i := by
      simp [idKey, hSid]
    have hmemK : fallbackKey i ∈ (rrfEvents kw kwL).map (fun e => e.1) := by
      have henum : (i, rowK) ∈ kwL.enum := by
        rw [List.mk_mem_enum_iff_getElem?]
        rw [← List.get?_eq_getElem?]
        exact hK
      simp only [rrfEvents, List.map_map]
      refine List.mem_map.mpr ⟨(i, rowK), henum, ?_⟩
      simpa using hkeyK
    have hmem : fallbackKey i ∈ bucketKeys (rrfCombine kwL semL kw sw) := by
      simp only [rrfCombine]
      rw [mem_bucketKeys_bucketFold, mem_bucketKeys_bucketFold]
      exact Or.inl (Or.inr hmemK)
    have hnodup : (bucketKeys (rrfCombine kwL semL kw sw)).Nodup := by
      simp only [rrfCombine]
      apply nodup_bucketKeys_bucketFold
      apply nodup_bucketKeys_bucketFold
      simp [bucketKeys]
    exact ⟨hkeyK, hkeyS, hmem, List.count_eq_one_of_mem hnodup hmem⟩

/-- Special case of `countSubstr_append_cons` at the head of a list. -/
lemma countSubstr_cons_of_not_mem (pat : List Char) (hne : pat ≠ []) {c : Char}
    (hc : c ∉ pat) (b : List Char) :
    countSubstr (c :: b) pat = countSubstr b pat := by
  have h := countSubstr_append_cons pat hne hc b []
  simpa [countSubstr, hne] using h

/-- C9 counterexample: a raw model output that contains the text `Sources:`
but no `[1]` marker gets a second `Sources:` section appended, so the
post-processed answer contains two `Sources:` occurrences, not exactly one. -/
theorem formatAnswer_sources_counterexample :
    includes "Sources: none" "[1]" = false ∧
    countSubstr (formatAnswerWithCitations "Sources: none"
      [⟨demoPaper, (1 : ℝ) / 2, "hybrid"⟩]).data "Sources:".data = 2 := by
  constructor
  · decide
  · decide

/-- C9 (amended): when the raw model output has no `[1]` marker, the
post-processed answer is the trimmed raw output followed by a synthesized
`Sources:` header and the citation lines of every source in rank order; that
appended header is the only `Sources:` occurrence provided neither the
trimmed raw output nor the synthesized citation block already contains
`Sources:`.  When the raw output does contain `[1]`, the answer is returned
unmodified apart from trimming. -/
theorem formatAnswer_citations_spec (answer : String) (sources : List SearchResult) :
    (includes answer "[1]" = false →
      formatAnswerWithCitations answer sources
        = jsTrim answer ++ "\n\nSources:\n" ++ citationsBlock sources) ∧
    (includes answer "[1]" = false →
      includes (jsTrim answer) "Sources:" = false →
      includes (citationsBlock sources) "Sources:" = false →
      countSubstr (formatAnswerWithCitations answer sources).data "Sources:".data = 1) ∧
    (includes answer "[1]" = true →
      formatAnswerWithCitations answer sources = jsTrim answer) := by
  have htr : includes (jsTrim answer) "[1]" = includes answer "[1]" :=
    includes_jsTrim_eq answer "[1]" '[' ']' ['1', ']'] ['1', '['] (by decide)
      (by decide) (by decide) (by decide)
  have hne : "Sources:".data ≠ [] := by decide
  have hcn : ('\n' : Char) ∉ "Sources:".data := by decide
  have hfmt : includes answer "[1]" = false →
      formatAnswerWithCitations answer sources
        = jsTrim answer ++ "\n\nSources:\n" ++ citationsBlock sources := by
    intro h1
    have hcond : includes (jsTrim answer) "[1]" = false := by rw [htr]; exact h1
    simp [formatAnswerWithCitations, hcond]
  refine ⟨hfmt, ?_, ?_⟩
  · intro h1 h2 h3
    have hT : countSubstr (jsTrim answer).data "Sources:".data = 0 := by
      simpa [includes] using h2
    have hB : countSubstr (citationsBlock sources).data "Sources:".data = 0 := by
      simpa [includes] using h3
    rw [hfmt h1]
    have hdata : (jsTrim answer ++ "\n\nSources:\n" ++ citationsBlock sources).data
        = (jsTrim answer).data
          ++ '\n' :: '\n' :: ("Sources:".data ++ '\n' :: (citationsBlock sources).data) := by
      simp only [String.data_append]
      simp
    rw [hdata, countSubstr_append_cons "Sources:".data hne hcn _ (jsTrim answer).data,
      countSubstr_cons_of_not_mem "Sources:".data hne hcn,
      countSubstr_append_cons "Sources:".data hne hcn
        (citationsBlock sources).data "Sources:".data,
      hT, hB]
    have hself : countSubstr "Sources:".data "Sources:".data = 1 := by decide
    rw [hself]
  · intro h1
    have hcond : includes (jsTrim answer) "[1]" = true := by rw [htr]; exact h1
    simp [formatAnswerWithCitations, hcond]

/-- C7: whenever `findSimilar` returns (rather than throwing on a dimension
mismatch), every returned row carries the cosine similarity of one of the
candidates, that similarity is at least `minSimilarity` (never strictly
below), the rows are sorted descending by score, and at most `topK` rows are
returned. -/
theorem findSimilar_spec (queryEmbedding : List ℝ) (candidates : List Candidate)
    (topK : ℕ) (minSimilarity : ℝ) (out : List SimResult)
    (hok : findSimilar queryEmbedding candidates topK minSimilarity = .ok out) :
    (∀ r ∈ out, minSimilarity ≤ r.score ∧
      ∃ c ∈ candidates, r.id = c.id ∧ r.text = c.text ∧
        cosineSimilarity queryEmbedding c.embedding = .ok r.score) ∧
    out.Pairwise (fun a b => b.score ≤ a.score) ∧
    out.length ≤ topK := by
  cases hs : candidates.mapM (scoreCandidate queryEmbedding) with
  | error e =>
    rw [findSimilar] at hok
    rw [hs] at hok
    simp [Bind.bind, Except.bind] at hok
  | ok scores =>
    rw [findSimilar] at hok
    rw [hs] at hok
    simp only [Bind.bind, Except.bind, Pure.pure, Except.pure, Except.ok.injEq] at hok
    subst hok
    refine ⟨?_, ?_, ?_⟩
    · intro r hr
      have hr1 := List.mem_of_mem_take hr
      have hr2 := List.mem_mergeSort.mp hr1
      have hr3 := List.mem_of_mem_filter hr2
      have hrp := (List.mem_filter.mp hr2).2
      refine ⟨of_decide_eq_true (by simpa using hrp), ?_⟩
      obtain ⟨c, hc, hfc⟩ := mapM_ok_mem _ _ _ hs r hr3
      cases hcos : cosineSimilarity queryEmbedding c.embedding with
      | error e =>
        rw [scoreCandidate] at hfc
        rw [hcos] at hfc
        simp [Bind.bind, Except.bind] at hfc
      | ok s =>
        rw [scoreCandidate] at hfc
        rw [hcos] at hfc
        simp only [Bind.bind, Except.bind, Pure.pure, Except.pure, Except.ok.injEq] at hfc
        subst hfc
        exact ⟨c, hc, rfl, rfl, hcos⟩
    · have hsorted := List.sorted_mergeSort (descLe_trans SimResult.score)
        (descLe_total SimResult.score)
        (scores.filter (fun s => decide (minSimilarity ≤ s.score)))
      have htake := hsorted.sublist (List.take_sublist topK _)
      exact htake.imp (fun h => of_decide_eq_true h)
    · exact List.length_take_le topK _

/-- Concrete query vector for the embedding witnesses (`|q|² = 5`). -/
noncomputable def demoQuery : List ℝ := [1, 2, 0]

/-- Concrete candidate whose cosine similarity against `demoQuery` is
exactly `2/5 = 0.4`. -/
noncomputable def demoCandidate : Candidate := ⟨"c1", "chunk text", [0, 1, 2]⟩

lemma cosine_demo : cosineSimilarity demoQuery [(0 : ℝ), 1, 2] = .ok (2 / 5) := by
  have hsq : sumSquares demoQuery = 5 := by norm_num [demoQuery, sumSquares]
  have hsb : sumSquares [(0 : ℝ), 1, 2] = 5 := by norm_num [sumSquares]
  have hdot : dotProduct demoQuery [(0 : ℝ), 1, 2] = 2 := by
    norm_num [demoQuery, dotProduct]
  have hmag : Real.sqrt 5 * Real.sqrt 5 = 5 := Real.mul_self_sqrt (by norm_num)
  simp only [cosineSimilarity, hsq, hsb, hdot, hmag]
  rw [if_neg (by simp [demoQuery]), if_neg (by norm_num)]

lemma findSimilar_demo_eval :
    findSimilar demoQuery [demoCandidate] 5 (3 / 10)
      = .ok [SimResult.mk "c1" "chunk text" ((2 : ℝ) / 5)] := by
  have hcos : cosineSimilarity demoQuery demoCandidate.embedding = .ok (2 / 5) := by
    have hemb : demoCandidate.embedding = [(0 : ℝ), 1, 2] := rfl
    rw [hemb, cosine_demo]
  have hscore : scoreCandidate demoQuery demoCandidate
      = .ok (SimResult.mk "c1" "chunk text" ((2 : ℝ) / 5)) := by
    rw [scoreCandidate]
    rw [hcos]
    simp [Bind.bind, Except.bind, Pure.pure, Except.pure, demoCandidate]
  have hmap : ([demoCandidate].mapM (scoreCandidate demoQuery))
      = .ok [SimResult.mk "c1" "chunk text" ((2 : ℝ) / 5)] := by
    rw [← List.mapM'_eq_mapM]
    simp [List.mapM', hscore, Bind.bind, Except.bind, Pure.pure, Except.pure]
  rw [findSimilar]
  rw [hmap]
  simp only [Bind.bind, Except.bind, Pure.pure, Except.pure]
  have hpass : (3 / 10 : ℝ) ≤ 2 / 5 := by norm_num
  simp [List.filter_cons, hpass]

/-- Closed witness for C7 at a concrete query and one in-threshold candidate. -/
theorem findSimilar_spec_witness :
    (∀ r ∈ [SimResult.mk "c1" "chunk text" ((2 : ℝ) / 5)], (3 / 10 : ℝ) ≤ r.score ∧
      ∃ c ∈ [demoCandidate], r.id = c.id ∧ r.text = c.text ∧
        cosineSimilarity demoQuery c.embedding = .ok r.score) ∧
    ([SimResult.mk "c1" "chunk text" ((2 : ℝ) / 5)]).Pairwise
      (fun a b => b.score ≤ a.score) ∧
    ([SimResult.mk "c1" "chunk text" ((2 : ℝ) / 5)]).length ≤ 5 :=
  findSimilar_spec demoQuery [demoCandidate] 5 (3 / 10) _ findSimilar_demo_eval

/-- A chunk row with a missing (falsy) embedding column. -/
noncomputable def missingChunkRow : ChunkRow :=
  ⟨"ch0", "paper0", "text zero", .missing, demoPaper⟩

/-- A chunk row whose embedding deserializes to a 3-vector. -/
noncomputable def validChunkRow : ChunkRow :=
  ⟨"ch1", "paper1", "text one", .parsed [0, 1, 2], demoPaper⟩

/-- A chunk row whose non-empty embedding column fails to deserialize. -/
noncomputable def malformedChunkRow : ChunkRow :=
  ⟨"ch2", "paper2", "text two", .malformed "Unexpected token x in JSON", demoPaper2⟩

/-- `cosineSimilarity` succeeds on vectors of equal length. -/
lemma cosineSimilarity_ok (a b : List ℝ) (h : a.length = b.length) :
    ∃ s, cosineSimilarity a b = .ok s := by
  simp only [cosineSimilarity]
  rw [if_neg (by simp [h])]
  by_cases hm : Real.sqrt (sumSquares a) * Real.sqrt (sumSquares b) = 0
  · exact ⟨0, by rw [if_pos hm]⟩
  · exact ⟨_, by rw [if_neg hm]⟩

/-- C2 counterexample: a single malformed embedding row makes the whole
`semanticSearch` request fail with the `JSON.parse` error, even though
another stored row is perfectly valid — the malformed row is not skipped
per-row. -/
theorem semanticSearch_malformed_counterexample :
    semanticSearchCore demoQuery [validChunkRow, malformedChunkRow] 10 (3 / 10)
      = .error "Unexpected token x in JSON" := by
  have hcand : candidatesOf [validChunkRow, malformedChunkRow]
      = .error "Unexpected token x in JSON" := by
    rw [candidatesOf, ← List.mapM'_eq_mapM]
    simp [validChunkRow, malformedChunkRow, blobTruthy, parseChunk, parseEmbedding,
      List.mapM', Bind.bind, Except.bind, Pure.pure, Except.pure]
  simp only [semanticSearchCore]
  rw [if_neg (by simp), hcand]
  simp [Bind.bind, Except.bind]

/-- C2 (amended): a row whose embedding column is absent or empty is skipped
per-row — it contributes no candidate, and when every kept row deserializes
to a vector of the query's dimension the whole request succeeds.  A row whose
non-empty column fails to deserialize is not skipped: the entire request
fails. -/
theorem semanticSearch_row_skip_spec (queryEmbedding : List ℝ)
    (allChunks : List ChunkRow) (topK : ℕ) (minSimilarity : ℝ) :
    (∀ m : ChunkRow, m.embedding = .missing →
      candidatesOf (m :: allChunks) = candidatesOf allChunks) ∧
    ((∀ c ∈ allChunks, blobTruthy c.embedding = true →
        ∃ v, c.embedding = .parsed v ∧ v.length = queryEmbedding.length) →
      ∃ res, semanticSearchCore queryEmbedding allChunks topK minSimilarity = .ok res) ∧
    (∀ c ∈ allChunks, ∀ e, c.embedding = .malformed e →
      ∀ res, semanticSearchCore queryEmbedding allChunks topK minSimilarity
        ≠ .ok res) := by
  refine ⟨?_, ?_, ?_⟩
  · intro m hm
    simp [candidatesOf, List.filter_cons, hm, blobTruthy]
  · intro hall
    by_cases hlen : allChunks.length = 0
    · exact ⟨[], by simp only [semanticSearchCore]; rw [if_pos hlen]⟩
    · have hcands : ∃ cands, candidatesOf allChunks = .ok cands := by
        apply mapM_ok_of_all
        intro c hc
        have hctruthy := (List.mem_filter.mp hc).2
        obtain ⟨v, hv, hvlen⟩ :=
          hall c (List.mem_of_mem_filter hc) (by simpa using hctruthy)
        exact ⟨Candidate.mk c.chunkId c.content v,
          by simp [parseChunk, hv, parseEmbedding, Bind.bind, Except.bind,
            Pure.pure, Except.pure]⟩
      obtain ⟨cands, hcands⟩ := hcands
      have hscores : ∃ scores, cands.mapM (scoreCandidate queryEmbedding)
          = .ok scores := by
        apply mapM_ok_of_all
        intro cand hcand
        obtain ⟨c, hc, hpc⟩ := mapM_ok_mem _ _ _ hcands cand hcand
        have hctruthy := (List.mem_filter.mp hc).2
        obtain ⟨v, hv, hvlen⟩ :=
          hall c (List.mem_of_mem_filter hc) (by simpa using hctruthy)
        have hcand_emb : cand.embedding = v := by
          rw [parseChunk, hv] at hpc
          simp only [parseEmbedding, Bind.bind, Except.bind, Pure.pure,
            Except.pure, Except.ok.injEq] at hpc
          rw [← hpc]
        obtain ⟨s, hs⟩ := cosineSimilarity_ok queryEmbedding cand.embedding
          (by rw [hcand_emb, hvlen])
        refine ⟨SimResult.mk cand.id cand.text s, ?_⟩
        rw [scoreCandidate]
        rw [hs]
        simp [Bind.bind, Except.bind, Pure.pure, Except.pure]
      obtain ⟨scores, hscores⟩ := hscores
      refine ⟨?_, ?_⟩
      · exact (((bucketFold [] (semanticEvents
          (((scores.filter (fun s => decide (minSimilarity ≤ s.score))).mergeSort
            (fun a b => decide (b.score ≤ a.score))).take topK) allChunks)).mergeSort
          (fun a b => decide (b.2.2 ≤ a.2.2))).take topK).map
          (fun e => SearchResult.mk e.2.1 e.2.2 "semantic")
      simp only [semanticSearchCore]
      rw [if_neg hlen, hcands]
      simp only [Bind.bind, Except.bind]
      rw [findSimilar]
      rw [hscores]
      simp [Bind.bind, Except.bind, Pure.pure, Except.pure]
  · intro c hc e he res hok
    have hlen : allChunks.length ≠ 0 := by
      intro h0
      rw [List.length_eq_zero] at h0
      subst h0
      simp at hc
    simp only [semanticSearchCore] at hok
    rw [if_neg hlen] at hok
    cases hcands : candidatesOf allChunks with
    | error e2 => rw [hcands] at hok; simp [Bind.bind, Except.bind] at hok
    | ok cands =>
      have hcfil : c ∈ allChunks.filter (fun c => blobTruthy c.embedding) := by
        rw [List.mem_filter]
        exact ⟨hc, by simp [he, blobTruthy]⟩
      have hpc : parseChunk c = .error e := by
        simp [parseChunk, he, parseEmbedding, Bind.bind, Except.bind]
      exact mapM_error_of_mem parseChunk _ c e hpc hcfil cands hcands

/-- Closed witness for C2 (amended): with a missing-column row and a valid
row stored, the missing row contributes no candidate and the search still
returns a result. -/
theorem semanticSearch_row_skip_spec_witness :
    candidatesOf (missingChunkRow :: [validChunkRow]) = candidatesOf [validChunkRow] ∧
    ∃ res, semanticSearchCore demoQuery [missingChunkRow, validChunkRow] 10 (3 / 10)
      = .ok res :=
  ⟨(semanticSearch_row_skip_spec demoQuery [validChunkRow] 10 (3 / 10)).1
      missingChunkRow rfl,
    (semanticSearch_row_skip_spec demoQuery [missingChunkRow, validChunkRow] 10
      (3 / 10)).2.1 (by
        intro c hc htruthy
        rcases List.mem_cons.mp hc with rfl | hc2
        · simp [missingChunkRow, blobTruthy] at htruthy
        · rcases List.mem_cons.mp hc2 with rfl | hc3
          · exact ⟨[0, 1, 2], rfl, rfl⟩
          · simp at hc3)⟩

/-- The summed similarity of all `findSimilar` rows that resolve (via the
`chunkId` lookup in `allChunks`) to the paper `pid`. -/
noncomputable def paperChunkSum (similar : List SimResult) (allChunks : List ChunkRow)
    (pid : String) : ℝ :=
  (similar.map (fun r =>
    match allChunks.find? (fun c => c.chunkId == r.id) with
    | some chunk => if chunk.paperId = pid then r.score else 0
    | none => 0)).sum

/-- The aggregation events of `semanticSearch` contribute, per paper, the sum
of the matching chunk similarities. -/
lemma eventSum_semanticEvents (similar : List SimResult) (allChunks : List ChunkRow)
    (pid : String) :
    eventSum (semanticEvents similar allChunks) pid
      = paperChunkSum similar allChunks pid := by
  induction similar with
  | nil => simp [eventSum, semanticEvents, paperChunkSum]
  | cons r rs ih =>
    cases hf : allChunks.find? (fun c => c.chunkId == r.id) with
    | none =>
      have hstep : semanticEvents (r :: rs) allChunks = semanticEvents rs allChunks := by
        simp only [semanticEvents, List.filterMap_cons, hf]
      have hsum : paperChunkSum (r :: rs) allChunks pid
          = 0 + paperChunkSum rs allChunks pid := by
        simp only [paperChunkSum, List.map_cons, List.sum_cons, hf]
      rw [hstep, ih, hsum, zero_add]
    | some chunk =>
      have hstep : semanticEvents (r :: rs) allChunks
          = (chunk.paperId, chunk.paper, r.score) :: semanticEvents rs allChunks := by
        simp only [semanticEvents, List.filterMap_cons, hf]
      have hsum : paperChunkSum (r :: rs) allChunks pid
          = (if chunk.paperId = pid then r.score else 0)
            + paperChunkSum rs allChunks pid := by
        simp only [paperChunkSum, List.map_cons, List.sum_cons, hf]
      rw [hstep, hsum]
      simp only [eventSum, List.map_cons, List.sum_cons]
      rw [← ih]
      rfl

/-- C6: whenever the semantic search pipeline returns, each paper's
aggregated score is the *sum* of the similarity scores of its surviving
chunks (not their maximum), and the result list is sorted by aggregated score
descending and truncated to `topK`. -/
theorem semanticSearch_sum_aggregation (queryEmbedding : List ℝ)
    (allChunks : List ChunkRow) (topK : ℕ) (minSimilarity : ℝ)
    (cands : List Candidate) (similar : List SimResult)
    (hchunks : allChunks.length ≠ 0)
    (hcands : candidatesOf allChunks = .ok cands)
    (hsim : findSimilar queryEmbedding cands topK minSimilarity = .ok similar) :
    semanticSearchCore queryEmbedding allChunks topK minSimilarity
      = .ok ((((bucketFold [] (semanticEvents similar allChunks)).mergeSort
          (fun a b => decide (b.2.2 ≤ a.2.2))).take topK).map
        (fun e => SearchResult.mk e.2.1 e.2.2 "semantic")) ∧
    (∀ pid, bucketScore (bucketFold [] (semanticEvents similar allChunks)) pid
      = paperChunkSum similar allChunks pid) ∧
    (∀ res, semanticSearchCore queryEmbedding allChunks topK minSimilarity = .ok res →
      res.Pairwise (fun a b => b.score ≤ a.score) ∧ res.length ≤ topK) := by
  have hcore : semanticSearchCore queryEmbedding allChunks topK minSimilarity
      = .ok ((((bucketFold [] (semanticEvents similar allChunks)).mergeSort
          (fun a b => decide (b.2.2 ≤ a.2.2))).take topK).map
        (fun e => SearchResult.mk e.2.1 e.2.2 "semantic")) := by
    simp only [semanticSearchCore]
    rw [if_neg hchunks, hcands]
    simp only [Bind.bind, Except.bind]
    rw [hsim]
    simp [Bind.bind, Except.bind, Pure.pure, Except.pure]
  refine ⟨hcore, ?_, ?_⟩
  · intro pid
    rw [bucketScore_bucketFold, eventSum_semanticEvents]
    simp [bucketScore]
  · intro res hres
    rw [hcore] at hres
    have heq : res = (((bucketFold [] (semanticEvents similar allChunks)).mergeSort
        (fun a b => decide (b.2.2 ≤ a.2.2))).take topK).map
        (fun e => SearchResult.mk e.2.1 e.2.2 "semantic") := by
      cases hres
      rfl
    subst heq
    constructor
    · rw [List.pairwise_map]
      have hsorted := List.sorted_mergeSort
        (descLe_trans (fun e : String × Paper × ℝ => e.2.2))
        (descLe_total (fun e : String × Paper × ℝ => e.2.2))
        (bucketFold [] (semanticEvents similar allChunks))
      have htake := hsorted.sublist (List.take_sublist topK _)
      exact htake.imp (fun h => of_decide_eq_true h)
    · rw [List.length_map]
      exact List.length_take_le topK _

/-- Query vector of the scenario-C witness (`|q|² = 49`). -/
noncomputable def scQuery : List ℝ := [2, 3, 6, 0, 0]

/-- First stored chunk of paper `p1`; cosine similarity `2/5 = 0.4`. -/
noncomputable def chunkRowA : ChunkRow :=
  ⟨"cA", "p1", "chunk one", .parsed [4, 0, 1, 2, 2], demoPaper⟩

/-- Second stored chunk of paper `p1`; cosine similarity `7/20 = 0.35`. -/
noncomputable def chunkRowB : ChunkRow :=
  ⟨"cB", "p1", "chunk two", .parsed [2, 9, 3, 15, 9], demoPaper⟩

/-- Candidate parsed from `chunkRowA`. -/
noncomputable def candA : Candidate := ⟨"cA", "chunk one", [4, 0, 1, 2, 2]⟩

/-- Candidate parsed from `chunkRowB`. -/
noncomputable def candB : Candidate := ⟨"cB", "chunk two", [2, 9, 3, 15, 9]⟩

/-- Scored row of `candA`. -/
noncomputable def simA : SimResult := ⟨"cA", "chunk one", 2 / 5⟩

/-- Scored row of `candB`. -/
noncomputable def simB : SimResult := ⟨"cB", "chunk two", 7 / 20⟩

lemma sqrt_of_sq (a : ℝ) (h : 0 ≤ a) : Real.sqrt (a ^ 2) = a := Real.sqrt_sq h

lemma cosine_candA : cosineSimilarity scQuery candA.embedding = .ok (2 / 5) := by
  have hq : sumSquares scQuery = 49 := by norm_num [scQuery, sumSquares]
  have ha : sumSquares candA.embedding = 25 := by norm_num [candA, sumSquares]
  have hdot : dotProduct scQuery candA.embedding = 14 := by
    norm_num [scQuery, candA, dotProduct]
  have h49 : Real.sqrt 49 = 7 := by
    rw [show (49 : ℝ) = 7 ^ 2 by norm_num]
    exact sqrt_of_sq 7 (by norm_num)
  have h25 : Real.sqrt 25 = 5 := by
    rw [show (25 : ℝ) = 5 ^ 2 by norm_num]
    exact sqrt_of_sq 5 (by norm_num)
  simp only [cosineSimilarity, hq, ha, hdot, h49, h25]
  rw [if_neg (by simp [scQuery, candA]), if_neg (by norm_num)]
  norm_num

lemma cosine_candB : cosineSimilarity scQuery candB.embedding = .ok (7 / 20) := by
  have hq : sumSquares scQuery = 49 := by norm_num [scQuery, sumSquares]
  have hb : sumSquares candB.embedding = 400 := by norm_num [candB, sumSquares]
  have hdot : dotProduct scQuery candB.embedding = 49 := by
    norm_num [scQuery, candB, dotProduct]
  have h49 : Real.sqrt 49 = 7 := by
    rw [show (49 : ℝ) = 7 ^ 2 by norm_num]
    exact sqrt_of_sq 7 (by norm_num)
  have h400 : Real.sqrt 400 = 20 := by
    rw [show (400 : ℝ) = 20 ^ 2 by norm_num]
    exact sqrt_of_sq 20 (by norm_num)
  simp only [cosineSimilarity, hq, hb, hdot, h49, h400]
  rw [if_neg (by simp [scQuery, candB]), if_neg (by norm_num)]
  norm_num

/-- Two-element `mergeSort` keeps the order when the comparator accepts the
first pair. -/
lemma mergeSort_pair {α : Type} (le : α → α → Bool) (x y : α) (h : le x y = true) :
    [x, y].mergeSort le = [x, y] := by
  rw [List.mergeSort]
  simp [List.splitInTwo_fst, List.splitInTwo_snd, h]

lemma candidates_scenarioC :
    candidatesOf [chunkRowA, chunkRowB] = .ok [candA, candB] := by
  rw [candidatesOf, ← List.mapM'_eq_mapM]
  simp [chunkRowA, chunkRowB, candA, candB, blobTruthy, parseChunk, parseEmbedding,
    List.mapM', Bind.bind, Except.bind, Pure.pure, Except.pure]

lemma findSimilar_scenarioC :
    findSimilar scQuery [candA, candB] 10 (3 / 10) = .ok [simA, simB] := by
  have hsa : scoreCandidate scQuery candA = .ok simA := by
    rw [scoreCandidate, cosine_candA]
    simp [Bind.bind, Except.bind, Pure.pure, Except.pure, candA, simA]
  have hsb : scoreCandidate scQuery candB = .ok simB := by
    rw [scoreCandidate, cosine_candB]
    simp [Bind.bind, Except.bind, Pure.pure, Except.pure, candB, simB]
  have hmap : ([candA, candB].mapM (scoreCandidate scQuery)) = .ok [simA, simB] := by
    rw [← List.mapM'_eq_mapM]
    simp [List.mapM', hsa, hsb, Bind.bind, Except.bind, Pure.pure, Except.pure]
  rw [findSimilar, hmap]
  simp only [Bind.bind, Except.bind, Pure.pure, Except.pure]
  have hfA : decide ((3 : ℝ) / 10 ≤ simA.score) = true :=
    decide_eq_true (by norm_num [simA])
  have hfB : decide ((3 : ℝ) / 10 ≤ simB.score) = true :=
    decide_eq_true (by norm_num [simB])
  have hsort : decide (simB.score ≤ simA.score) = true :=
    decide_eq_true (by norm_num [simA, simB])
  rw [List.filter_cons, List.filter_cons]
  simp only [hfA, hfB, if_true, List.filter_nil]
  rw [mergeSort_pair _ simA simB hsort]
  rfl

/-- Closed witness for C6, realizing end-to-end scenario C: two chunks of the
same paper score `0.4` and `0.35`; the paper's aggregated score is their sum
`0.75 = 3/4`, not the maximum `0.4`. -/
theorem semanticSearch_sum_aggregation_witness :
    bucketScore (bucketFold [] (semanticEvents [simA, simB] [chunkRowA, chunkRowB]))
      "p1" = 3 / 4 ∧
    semanticSearchCore scQuery [chunkRowA, chunkRowB] 10 (3 / 10)
      = .ok ((((bucketFold [] (semanticEvents [simA, simB] [chunkRowA, chunkRowB])).mergeSort
          (fun a b => decide (b.2.2 ≤ a.2.2))).take 10).map
        (fun e => SearchResult.mk e.2.1 e.2.2 "semantic")) := by
  have h := semanticSearch_sum_aggregation scQuery [chunkRowA, chunkRowB] 10 (3 / 10)
    [candA, candB] [simA, simB] (by simp) candidates_scenarioC findSimilar_scenarioC
  constructor
  · rw [h.2.1 "p1"]
    have hfA : List.find? (fun c => c.chunkId == simA.id) [chunkRowA, chunkRowB]
        = some chunkRowA := rfl
    have hfB : List.find? (fun c => c.chunkId == simB.id) [chunkRowA, chunkRowB]
        = some chunkRowB := rfl
    simp only [paperChunkSum, List.map_cons, List.map_nil, List.sum_cons,
      List.sum_nil, hfA, hfB]
    norm_num [simA, simB, chunkRowA, chunkRowB]
  · exact h.1

/-- Closed witness for C9 (amended) at a concrete answer and source list. -/
theorem formatAnswer_citations_spec_witness :
    countSubstr (formatAnswerWithCitations "The answer."
      [⟨demoPaper, (1 : ℝ) / 2, "hybrid"⟩]).data "Sources:".data = 1 :=
  (formatAnswer_citations_spec "The answer." [⟨demoPaper, (1 : ℝ) / 2, "hybrid"⟩]).2.1
    (by decide) (by decide) (by decide)

/-- Closed witness for C3 (amended) at the two concrete id-less rows. -/
theorem fallback_key_buckets_witness :
    idKey (⟨noIdPaperA, (1 : ℝ) / 2, "keyword"⟩ : SearchResult).paper.id 0
        = fallbackKey 0 ∧
    idKey (⟨noIdPaperB, (1 : ℝ) / 2, "semantic"⟩ : SearchResult).paper.id 0
        = fallbackKey 0 ∧
    fallbackKey 0 ∈ bucketKeys (rrfCombine [⟨noIdPaperA, (1 : ℝ) / 2, "keyword"⟩]
      [⟨noIdPaperB, (1 : ℝ) / 2, "semantic"⟩] (1 / 2) (1 / 2)) ∧
    (bucketKeys (rrfCombine [⟨noIdPaperA, (1 : ℝ) / 2, "keyword"⟩]
      [⟨noIdPaperB, (1 : ℝ) / 2, "semantic"⟩] (1 / 2) (1 / 2))).count (fallbackKey 0)
      = 1 :=
  fallback_key_buckets.2 [⟨noIdPaperA, (1 : ℝ) / 2, "keyword"⟩]
    [⟨noIdPaperB, (1 : ℝ) / 2, "semantic"⟩] (1 / 2) (1 / 2) 0 _ _ rfl (by decide)
    rfl (by decide)

/-- Closed witness for C1 (amended) at concrete one-element lists. -/
theorem hybrid_rank0_both_lists_score_witness :
    bucketScore (rrfCombine [⟨demoPaper2, (1 : ℝ) / 2, "keyword"⟩]
      [⟨demoPaper2, (3 : ℝ) / 5, "semantic"⟩] (1 / 2) (1 / 2)) "p2" = 1 / 61 :=
  hybrid_rank0_both_lists_score _ [] _ [] "p2" (by decide)
    (by intro q hq; simp at hq) (by decide) (by intro q hq; simp at hq)

/-! ## Claim theorems -/

/-- C8: with the empty-string query, every entry point — `keywordSearch`,
`semanticSearch`, `hybridSearch`, `generateAnswer` and `streamAnswer` — fails
immediately with the same `Query cannot be empty` error, whatever the other
arguments are, so no search results and no answer fragments are produced. -/
theorem empty_query_rejected_everywhere
    (storeRows : List SearchResult) (category : Option String)
    (queryEmbedding : List ℝ) (allChunks : List ChunkRow) (topK : ℕ)
    (minSimilarity : ℝ) (keywordResults semanticResults : List SearchResult)
    (kw sw : ℝ) (llmResponse : Option String) (now : String)
    (modelChunks : List String) :
    keywordSearch "" storeRows category = .error "Query cannot be empty" ∧
    semanticSearch "" queryEmbedding allChunks topK minSimilarity
      = .error "Query cannot be empty" ∧
    hybridSearch "" keywordResults semanticResults topK kw sw
      = .error "Query cannot be empty" ∧
    generateAnswer "" keywordResults llmResponse now
      = .error "Query cannot be empty" ∧
    streamAnswer "" keywordResults modelChunks = .error "Query cannot be empty" := by
  have he : "".isEmpty = true := by decide
  refine ⟨?_, ?_, ?_, ?_, ?_⟩ <;>
    simp [keywordSearch, semanticSearch, hybridSearch, generateAnswer, streamAnswer, he]

/-- C10: for a query that passes validation and a non-empty search-result
list, the streamed fragment sequence is exactly the truthy model fragments
followed by a trailing `Sources:` header fragment and one citation line per
source in rank order — whether or not the model fragments contained `[1]` —
and the header fragment contains the literal substring `Sources:`. -/
theorem streamAnswer_ends_with_sources (query : String)
    (searchResults : List SearchResult) (modelChunks : List String)
    (hq : query ≠ "") (hr : searchResults ≠ []) :
    streamAnswer query searchResults modelChunks =
      .ok ((modelChunks.filter (fun c => !c.isEmpty))
        ++ "\n\nSources:\n"
          :: searchResults.enum.map (fun p => streamCiteLine p.1 p.2.paper)) ∧
    includes "\n\nSources:\n" "Sources:" = true := by
  constructor
  · have hq2 : query.isEmpty = false := by
      rw [Bool.eq_false_iff]
      intro h
      exact hq ((String.isEmpty_iff query).mp h)
    have hr2 : searchResults.isEmpty = false := by
      cases searchResults with
      | nil => exact absurd rfl hr
      | cons r rs => rfl
    simp [streamAnswer, hq2, hr2, streamLLMResponse]
  · decide

/-- Dividing every element of a running JS `Math.max` fold by a positive
constant divides the fold result by that constant. -/
lemma foldl_max_div (l : List ℝ) (a m : ℝ) (hm : 0 < m) :
    (l.map (fun x => x / m)).foldl max (a / m) = (l.foldl max a) / m := by
  induction l generalizing a with
  | nil => rfl
  | cons x xs ih =>
    simp only [List.map_cons, List.foldl_cons]
    rw [max_div_div_right hm.le a x, ih (max a x)]

/-- Normalizing a non-empty result list by dividing each score by a positive
constant divides its maximum by that constant. -/
lemma maxScoreOf_map_div (r : SearchResult) (rs : List SearchResult) (M : ℝ)
    (hM : 0 < M) :
    maxScoreOf ((r :: rs).map (fun x => { x with score := x.score / M })) =
      maxScoreOf (r :: rs) / M := by
  simp only [List.map_cons, maxScoreOf, List.map_map]
  have hcomp : ((fun x : SearchResult => x.score) ∘ fun x : SearchResult =>
      { x with score := x.score / M }) = fun x : SearchResult => x.score / M := rfl
  rw [hcomp]
  have hmap : (rs.map (fun x : SearchResult => x.score / M))
      = ((rs.map (fun x => x.score)).map (fun y => y / M)) := by
    rw [List.map_map]; rfl
  rw [hmap, foldl_max_div _ _ _ hM]

/-- C4 counterexample: a one-element list with (maximal) score `-1` violates
the claim as stated — its original maximum is not 0, yet after normalization
the maximum score is 0, not 1. -/
theorem normalizeScores_negative_max_counterexample :
    negativeScoreList ≠ [] ∧ maxScoreOf negativeScoreList ≠ 0 ∧
    maxScoreOf (normalizeScores negativeScoreList) ≠ 1 := by
  refine ⟨by simp [negativeScoreList], ?_, ?_⟩
  · norm_num [negativeScoreList, maxScoreOf]
  · norm_num [negativeScoreList, normalizeScores, maxScoreOf]

/-- C4 (amended): normalizing an empty list returns an empty list; for a
non-empty list the maximum normalized score is exactly 1 when the original
maximum is positive, and every normalized score is 0 when the original
maximum is ≤ 0 (not only when it is exactly 0). -/
theorem normalizeScores_spec (results : List SearchResult) :
    normalizeScores ([] : List SearchResult) = [] ∧
    (results ≠ [] → 0 < maxScoreOf results →
      maxScoreOf (normalizeScores results) = 1) ∧
    (results ≠ [] → maxScoreOf results ≤ 0 →
      ∀ r ∈ normalizeScores results, r.score = 0) := by
  refine ⟨rfl, ?_, ?_⟩
  · intro hne hpos
    obtain ⟨r, rs, rfl⟩ : ∃ r rs, results = r :: rs := by
      cases results with
      | nil => exact absurd rfl hne
      | cons r rs => exact ⟨r, rs, rfl⟩
    have hmne : maxScoreOf (r :: rs) ≠ 0 := ne_of_gt hpos
    have key : normalizeScores (r :: rs) =
        (r :: rs).map (fun x => { x with score := x.score / maxScoreOf (r :: rs) }) := by
      simp only [normalizeScores, hpos, if_true]
    rw [key, maxScoreOf_map_div r rs _ hpos, div_self hmne]
  · intro hne hneg
    obtain ⟨r, rs, rfl⟩ : ∃ r rs, results = r :: rs := by
      cases results with
      | nil => exact absurd rfl hne
      | cons r rs => exact ⟨r, rs, rfl⟩
    intro x hx
    have hnotpos : ¬ maxScoreOf (r :: rs) > 0 := not_lt.mpr hneg
    simp only [normalizeScores, List.mem_map] at hx
    obtain ⟨y, hy, rfl⟩ := hx
    simp [hnotpos]

/-- A two-element list with positive maximum score 2, used as the concrete
input of the C4 witness. -/
noncomputable def posScoreList : List SearchResult :=
  [⟨demoPaper, 2, "keyword"⟩, ⟨demoPaper2, 1, "keyword"⟩]

/-- Closed witness for C4 at a concrete two-element list with maximum 2. -/
theorem normalizeScores_spec_witness :
    posScoreList ≠ [] ∧ 0 < maxScoreOf posScoreList ∧
    maxScoreOf (normalizeScores posScoreList) = 1 := by
  have hne : posScoreList ≠ [] := by simp [posScoreList]
  have hpos : 0 < maxScoreOf posScoreList := by
    norm_num [posScoreList, maxScoreOf]
  exact ⟨hne, hpos, (normalizeScores_spec posScoreList).2.1 hne hpos⟩

/-- Closed witness for C10 at a concrete query, result list and fragment
list whose fragments already contain a `[1]` marker. -/
theorem streamAnswer_ends_with_sources_witness :
    streamAnswer "q" [⟨demoPaper, (1 : ℝ), "hybrid"⟩] ["answer [1]"] =
      .ok ((["answer [1]"].filter (fun c => !c.isEmpty))
        ++ "\n\nSources:\n"
          :: ([⟨demoPaper, (1 : ℝ), "hybrid"⟩] :
              List SearchResult).enum.map (fun p => streamCiteLine p.1 p.2.paper)) ∧
    includes "\n\nSources:\n" "Sources:" = true :=
  streamAnswer_ends_with_sources "q" [⟨demoPaper, (1 : ℝ), "hybrid"⟩] ["answer [1]"]
    (by decide) (by simp)

/-- C5: for fixed keyword and semantic candidate lists, `hybridRanked` (the
fused list of `hybridSearch`) is the `topK`-truncation of the stably sorted
fused bucket list `fusedSorted`, and moving any `d > 0` of weight from the
semantic side to the keyword side never increases the fused rank of a paper
key that occurs in the keyword list and not in the semantic list. -/
theorem hybrid_keyword_rank_monotonic
    (keywordResults semanticResults : List SearchResult)
    (kw sw d : ℝ) (key : String)
    (hkw : 0 < kw) (hsw : 0 ≤ sw) (hd : 0 < d)
    (hmemk : key ∈ keysOf keywordResults)
    (hmems : key ∉ keysOf semanticResults) :
    (∀ topK : ℕ, hybridRanked keywordResults semanticResults topK (kw + d) (sw - d)
        = ((fusedSorted keywordResults semanticResults (kw + d) (sw - d)).take topK).map
            (fun e => SearchResult.mk e.2.1 e.2.2 "hybrid")) ∧
    fusedRank keywordResults semanticResults (kw + d) (sw - d) key
      ≤ fusedRank keywordResults semanticResults kw sw key := by
  constructor
  · intro topK
    rfl
  · have hBkey : rrfContrib (normalizeScores semanticResults) key = 0 :=
      rrfContrib_eq_zero_of_not_mem _ key (by rwa [keysOf_normalizeScores])
    rw [fusedRank_eq_count keywordResults semanticResults (kw + d) (sw - d) key hmemk,
      fusedRank_eq_count keywordResults semanticResults kw sw key hmemk,
      bucketKeys_rrfCombine_weights (normalizeScores keywordResults)
        (normalizeScores semanticResults) (kw + d) (sw - d) kw sw]
    apply List.countP_mono_left
    intro k hk hp
    simp only [decide_eq_true_eq] at hp ⊢
    exact keyAbove_weight_shift (normalizeScores keywordResults)
      (normalizeScores semanticResults) kw sw d hkw hsw hd key hBkey k hp

/-- A single-row keyword result list whose paper has the id `p1`. -/
noncomputable def kwOnlyList : List SearchResult := [⟨demoPaper, 1, "keyword"⟩]

/-- A single-row semantic result list whose paper has the id `p2`. -/
noncomputable def semOnlyList : List SearchResult := [⟨demoPaper2, 1, "semantic"⟩]

/-- Closed witness for C5 at concrete lists, weights 0.5/0.5 and shift 0.25:
the key `p1` occurs only in the keyword list and its fused rank does not
increase. -/
theorem hybrid_keyword_rank_monotonic_witness :
    ((0:ℝ) < 1/2 ∧ (0:ℝ) ≤ 1/2 ∧ (0:ℝ) < 1/4 ∧
      "p1" ∈ keysOf kwOnlyList ∧ "p1" ∉ keysOf semOnlyList) ∧
    fusedRank kwOnlyList semOnlyList (1/2 + 1/4) (1/2 - 1/4) "p1"
      ≤ fusedRank kwOnlyList semOnlyList (1/2) (1/2) "p1" := by
  have hkw : (0:ℝ) < 1/2 := by norm_num
  have hsw : (0:ℝ) ≤ 1/2 := by norm_num
  have hd : (0:ℝ) < 1/4 := by norm_num
  have hm : "p1" ∈ keysOf kwOnlyList := by
    have h1 : idTruthy (some "p1") = true := by decide
    simp [keysOf, kwOnlyList, idKey, h1, demoPaper]
  have hn : "p1" ∉ keysOf semOnlyList := by
    have h1 : idTruthy (some "p2") = true := by decide
    have h2 : ("p1" : String) ≠ "p2" := by decide
    simp [keysOf, semOnlyList, idKey, h1, demoPaper2, h2]
  exact ⟨⟨hkw, hsw, hd, hm, hn⟩,
    (hybrid_keyword_rank_monotonic kwOnlyList semOnlyList (1/2) (1/2) (1/4) "p1"
      hkw hsw hd hm hn).2⟩

end ArxivRag
